import Mathlib

/-!
Verification of the TensorRT execution provider's subgraph scope-resolution
and partition-context builder
(`onnxruntime/core/providers/tensorrt/tensorrt_execution_provider_helper.cc`).

The C++ code walks an in-memory ONNX graph.  We embed the parts of the graph
object that the code under scrutiny actually touches:

* a `Node` carries its name, input/output/implicit-input defs and the
  attribute-name-to-subgraph map of a control-flow node;
* a `Graph` carries its name, a sparse node list (`GetNode(i)` may return
  `nullptr`, modelled with `Option`), the declared input list
  (`GetInputsIncludingInitializers`), the graph-local node-arg storage
  queried by `GetNodeArg` / extended by `GetOrCreateNodeArg`, and the
  outer-scope node-arg names added by `AddOuterScopeNodeArg`.

C++ `std::unordered_set` / `std::unordered_map` are embedded as lists with
set/map insertion discipline (a key occurs at most once in states reachable
from C++); iteration order of the embedding is insertion order.  `NodeArg*`
pointers handed out by a graph's node-arg storage are interned per name, so
pointer identity is modelled by name identity.  `TypeProto` payloads are
opaque tags (`Nat`).
-/

/-- Opaque stand-in for `ONNX_NAMESPACE::TypeProto`. -/
abbrev Ty := Nat

/-- A named, typed value reference (`onnxruntime::NodeArg`). -/
structure NodeArg where
  name : String
  ty : Ty
deriving DecidableEq, Repr

mutual
/-- A graph node: name, `InputDefs`, `OutputDefs`, `ImplicitInputDefs`,
and `GetAttributeNameToSubgraphMap` (attribute name to owned subgraph). -/
inductive Node : Type where
| mk : String → List NodeArg → List NodeArg → List NodeArg → List (String × Graph) → Node

/-- A graph: name, sparse node list (`GetNode` may be null at an index),
`GetInputsIncludingInitializers`, graph-local node-arg storage, and
outer-scope node-arg names. -/
inductive Graph : Type where
| mk : String → List (Option Node) → List NodeArg → List NodeArg → List String → Graph
end

def Node.name : Node → String
| .mk n _ _ _ _ => n

def Node.inputDefs : Node → List NodeArg
| .mk _ i _ _ _ => i

def Node.outputDefs : Node → List NodeArg
| .mk _ _ o _ _ => o

def Node.implicitInputDefs : Node → List NodeArg
| .mk _ _ _ im _ => im

def Node.subgraphs : Node → List (String × Graph)
| .mk _ _ _ _ s => s

def Graph.name : Graph → String
| .mk n _ _ _ _ => n

def Graph.nodes : Graph → List (Option Node)
| .mk _ ns _ _ _ => ns

def Graph.inputsIncludingInitializers : Graph → List NodeArg
| .mk _ _ ins _ _ => ins

def Graph.nodeArgs : Graph → List NodeArg
| .mk _ _ _ args _ => args

def Graph.outerScopeNodeArgs : Graph → List String
| .mk _ _ _ _ os => os

/-- Graph-local node-arg lookup by name (`Graph::GetNodeArg`): first stored
arg with the given name. -/
def findArg : List NodeArg → String → Option NodeArg
| [], _ => none
| a :: t, n => if a.name = n then some a else findArg t n

def Graph.getNodeArg (g : Graph) (n : String) : Option NodeArg :=
  findArg g.nodeArgs n

/-- Insert a string into a set-list (`std::unordered_set<std::string>::insert`):
no-op when already present. -/
def insertStr (l : List String) (x : String) : List String :=
  if x ∈ l then l else l ++ [x]

/-- `Graph::AddOuterScopeNodeArg`: records the name in the graph's
outer-scope node-arg name set. -/
def Graph.addOuterScopeNodeArg : Graph → String → Graph
| .mk n ns ins args os, x => .mk n ns ins args (insertStr os x)

/-! ## Scope Context Store

`SubGraphContext` is the per-graph Scope Record; the store maps graph name
to record (`std::unordered_map<std::string, std::unique_ptr<SubGraphContext>>`).
-/

/-- Per-subgraph record: produced outputs (`output_args`), consumed
inputs/initializers (`inputs_and_initializers`, name to defining `NodeArg`)
and synthesized top-level inputs (`manually_added_graph_inputs`). -/
structure SubGraphContext where
  output_args : List String
  inputs_and_initializers : List (String × NodeArg)
  manually_added_graph_inputs : List NodeArg
deriving DecidableEq, Repr

def emptyCtx : SubGraphContext := ⟨[], [], []⟩

abbrev Store := List (String × SubGraphContext)

def lookupS : Store → String → Option SubGraphContext
| [], _ => none
| (k, c) :: t, n => if k = n then some c else lookupS t n

/-- Replace the record bound to a name (append when absent; the code only
updates names it has just ensured are present). -/
def updateS : Store → String → SubGraphContext → Store
| [], n, c => [(n, c)]
| (k, v) :: t, n, c => if k = n then (k, c) :: t else (k, v) :: updateS t n c

/-- Map keys of an association list. -/
def keysA (m : List (String × NodeArg)) : List String := m.map Prod.fst

/-- The produced set and the consumed key set of a Scope Record do not
intersect. -/
def recDisjoint (c : SubGraphContext) : Prop :=
  ∀ x ∈ c.output_args, x ∉ keysA c.inputs_and_initializers

def lookupA : List (String × NodeArg) → String → Option NodeArg
| [], _ => none
| (k, v) :: t, n => if k = n then some v else lookupA t n

/-- `unordered_map::operator[]` assignment: overwrite in place when the key
is present, append otherwise. -/
def assignA : List (String × NodeArg) → String → NodeArg → List (String × NodeArg)
| [], k, v => [(k, v)]
| (k', v') :: t, k, v => if k' = k then (k', v) :: t else (k', v') :: assignA t k v

/-- Insert a `NodeArg*` into a pointer set keyed by interned name
(`std::unordered_set<NodeArg*>::insert` where all pointers come from one
graph's per-name-interned storage). -/
def argInsert (l : List NodeArg) (a : NodeArg) : List NodeArg :=
  if a.name ∈ l.map NodeArg.name then l else l ++ [a]

/-! ## Context Builder (`BuildSubGraphContext`) -/

/-- First loop of the per-graph phase: insert every node output name into
`output_args`. -/
def insertOutputs : List String → List NodeArg → List String
| o, [] => o
| o, a :: t => insertOutputs (insertStr o a.name) t

def collectOutputsNodes : List String → List (Option Node) → List String
| o, [] => o
| o, none :: t => collectOutputsNodes o t
| o, some nd :: t => collectOutputsNodes (insertOutputs o nd.outputDefs) t

/-- Second loop of the per-graph phase: for every node input whose name is
not in `output_args`, record it into `inputs_and_initializers`. -/
def assignInputs (out : List String) : List (String × NodeArg) → List NodeArg → List (String × NodeArg)
| m, [] => m
| m, a :: t => if a.name ∈ out then assignInputs out m t else assignInputs out (assignA m a.name a) t

def collectInputsNodes (out : List String) : List (String × NodeArg) → List (Option Node) → List (String × NodeArg)
| m, [] => m
| m, none :: t => collectInputsNodes out m t
| m, some nd :: t => collectInputsNodes out (assignInputs out m nd.inputDefs) t

/-- The per-graph phase of `BuildSubGraphContext` applied to the record
found (or created) under the graph's name: collect all node outputs, then
all node inputs not produced inside the graph. -/
def processRec (g : Graph) (c : SubGraphContext) : SubGraphContext :=
  let out := collectOutputsNodes c.output_args g.nodes
  { c with
    output_args := out
    inputs_and_initializers := collectInputsNodes out c.inputs_and_initializers g.nodes }

mutual
/-- `TensorrtExecutionProvider::BuildSubGraphContext`: recurse into every
nested subgraph of every node first, then ensure a record exists under the
graph's name and run the two collection loops on it. -/
def BuildSubGraphContext : Graph → Store → Store
| .mk name nodes ins args os, s =>
  let s1 := bscNodes nodes s
  let s2 := if (lookupS s1 name).isSome then s1 else s1 ++ [(name, emptyCtx)]
  let c := (lookupS s2 name).getD emptyCtx
  updateS s2 name (processRec (.mk name nodes ins args os) c)

def bscNodes : List (Option Node) → Store → Store
| [], s => s
| none :: t, s => bscNodes t s
| some nd :: t, s => bscNodes t (bscNode nd s)

def bscNode : Node → Store → Store
| .mk _ _ _ _ subs, s => bscSubs subs s

def bscSubs : List (String × Graph) → Store → Store
| [], s => s
| (_, g) :: t, s => bscSubs t (BuildSubGraphContext g s)
end

/-! ## Locality Classifier

The classifier only ever reads a graph's name and walks its parent chain,
so it is embedded over `GraphView`: the name of a graph together with its
chain of ancestors (`ParentGraph`). -/

/-- A graph as seen by the locality classifier: its name and its parent
chain. -/
inductive GraphView : Type where
| mk : String → Option GraphView → GraphView

def GraphView.name : GraphView → String
| .mk n _ => n

def GraphView.parent : GraphView → Option GraphView
| .mk _ p => p

/-- `TensorrtExecutionProvider::IsLocalValue`: false when the store has no
record under the graph's name; otherwise true iff the name is in the
record's `output_args` or among the keys of `inputs_and_initializers`. -/
def IsLocalValue (s : Store) (g : GraphView) (n : String) : Bool :=
  match lookupS s g.name with
  | none => false
  | some c => decide (n ∈ c.output_args) || decide (n ∈ keysA c.inputs_and_initializers)

/-- `TensorrtExecutionProvider::IsInputInitializerOrOutput`: local to this
graph, or (when `check_ancestors` and a parent exists) recursively satisfied
by the parent. -/
def IsInputInitializerOrOutput (s : Store) : GraphView → String → Bool → Bool
| .mk nm p, n, checkAncestors =>
  IsLocalValue s (.mk nm p) n ||
    (checkAncestors &&
      match p with
      | none => false
      | some pv => IsInputInitializerOrOutput s pv n checkAncestors)

/-- `TensorrtExecutionProvider::IsOuterScopeValue`: the graph has a parent
and the parent (checking ancestors) accounts for the name. -/
def IsOuterScopeValue (s : Store) (g : GraphView) (n : String) : Bool :=
  match g.parent with
  | none => false
  | some p => IsInputInitializerOrOutput s p n true

/-- Rebuild the classifier's view of a graph from its name and the list of
ancestor names (nearest first). -/
def viewOf (n : String) : List String → GraphView
| [] => .mk n none
| p :: t => .mk n (some (viewOf p t))

/-- Ancestor chain of a view, nearest first. -/
def ancestorsOf : GraphView → List GraphView
| .mk _ none => []
| .mk _ (some p) => p :: ancestorsOf p

/-! ## Outer-Scope Binder (`SetGraphOuterScopeValuesAndInputs`)

The C++ function mutates, through pointers, (a) the subgraph currently
being processed (`AddOuterScopeNodeArg`), (b) the node-arg storage of the
top-most graph of the built tree (`GetOrCreateNodeArg`), and (c) the Scope
Record stored under the top-most graph's name
(`manually_added_graph_inputs`).  The embedding threads (b) and (c) as
explicit state and rebuilds the tree for (a).  The binder is invoked by the
provider on a parentless freshly built graph, so the top-most graph reached
by the `MutableParentGraph` walk is the graph the wrapper below is called
on; its (constant during the walk) declared input list and its name are
passed down as `ri` and `rn`. -/

structure BindSt where
  rootNodeArgs : List NodeArg
  store : Store
deriving DecidableEq, Repr

/-- `Graph::GetOrCreateNodeArg` on the top-level graph: return the interned
arg when one with this name exists, otherwise create one carrying the type
copied from the original graph's arg. -/
def getOrCreateNodeArg (args : List NodeArg) (n : String) (t : Ty) : NodeArg × List NodeArg :=
  match findArg args n with
  | some a => (a, args)
  | none => (⟨n, t⟩, args ++ [⟨n, t⟩])

/-- Record a synthesized input into the Scope Record stored under the
top-level graph's name, when such a record exists. -/
def insertSynth (s : Store) (rn : String) (a : NodeArg) : Store :=
  match lookupS s rn with
  | none => s
  | some c => updateS s rn { c with manually_added_graph_inputs := argInsert c.manually_added_graph_inputs a }

/-- Body of the implicit-input loop of `SetGraphOuterScopeValuesAndInputs`
for one implicit input of the original owning node: skip when the built
subgraph has no local node-arg for it; otherwise mark it outer-scope and,
when no ancestor scope accounts for it and the top-level declared inputs do
not contain it, create a top-level node-arg and record it as synthesized. -/
def stepImplicit (rn : String) (ri : List NodeArg) (anc : List String) (p : Graph × BindSt) (input : NodeArg) : Graph × BindSt :=
  match p.1.getNodeArg input.name with
  | none => p
  | some _ =>
    let gB := p.1.addOuterScopeNodeArg input.name
    let st := p.2
    if IsOuterScopeValue st.store (viewOf gB.name anc) input.name then (gB, st)
    else if input.name ∈ ri.map NodeArg.name then (gB, st)
    else
      let (narg, roots) := getOrCreateNodeArg st.rootNodeArgs input.name input.ty
      (gB, ⟨roots, insertSynth st.store rn narg⟩)

def processImplicits (rn : String) (ri : List NodeArg) (anc : List String) (p : Graph × BindSt) (inputs : List NodeArg) : Graph × BindSt :=
  inputs.foldl (stepImplicit rn ri anc) p

/-- Find the first node (in index order) of the original graph carrying the
given name (the `for (int j ...)` search with `break`). -/
def findNodeByName : List (Option Node) → String → Option Node
| [], _ => none
| none :: t, n => findNodeByName t n
| some nd :: t, n => if nd.name = n then some nd else findNodeByName t n

def lookupAttr : List (String × Graph) → String → Option Graph
| [], _ => none
| (k, g) :: t, n => if k = n then some g else lookupAttr t n

mutual
/-- `TensorrtExecutionProvider::SetGraphOuterScopeValuesAndInputs` on one
level: recurse into every attribute-matched (built, original) subgraph pair
of every node, then, when this built graph is itself a nested subgraph
(`opn` carries the original owning node), run the implicit-input loop.
`anc` is the chain of ancestor names of the built graph, nearest first. -/
def bindGraph (rn : String) (ri : List NodeArg) (gB : Graph) (anc : List String) (gO : Graph) (opn : Option Node) (st : BindSt) : Graph × BindSt :=
  match gB with
  | .mk name nodes ins args os =>
    let r := bindNodes rn ri nodes (name :: anc) gO st
    let gB1 : Graph := .mk name r.1 ins args os
    match opn with
    | none => (gB1, r.2)
    | some pn => processImplicits rn ri anc (gB1, r.2) pn.implicitInputDefs
termination_by structural gB

def bindNodes (rn : String) (ri : List NodeArg) (l : List (Option Node)) (anc : List String) (gO : Graph) (st : BindSt) : List (Option Node) × BindSt :=
  match l with
  | [] => ([], st)
  | none :: t =>
    let r := bindNodes rn ri t anc gO st
    (none :: r.1, r.2)
  | some nd :: t =>
    let r1 := bindNode rn ri nd anc gO st
    let r := bindNodes rn ri t anc gO r1.2
    (some r1.1 :: r.1, r.2)
termination_by structural l

def bindNode (rn : String) (ri : List NodeArg) (nd : Node) (anc : List String) (gO : Graph) (st : BindSt) : Node × BindSt :=
  match nd with
  | .mk nm ins outs imps subs =>
    let om := findNodeByName gO.nodes nm
    let origSubs := match om with
      | none => []
      | some onode => onode.subgraphs
    let r := bindSubs rn ri subs anc origSubs om st
    (.mk nm ins outs imps r.1, r.2)
termination_by structural nd

def bindSubs (rn : String) (ri : List NodeArg) (l : List (String × Graph)) (anc : List String) (origSubs : List (String × Graph)) (om : Option Node) (st : BindSt) : List (String × Graph) × BindSt :=
  match l with
  | [] => ([], st)
  | (attr, sgB) :: t =>
    match lookupAttr origSubs attr with
    | none =>
      let r := bindSubs rn ri t anc origSubs om st
      ((attr, sgB) :: r.1, r.2)
    | some sgO =>
      let rg := bindGraph rn ri sgB anc sgO om st
      let r := bindSubs rn ri t anc origSubs om rg.2
      ((attr, rg.1) :: r.1, r.2)
termination_by structural l
end

def Graph.withNodeArgs : Graph → List NodeArg → Graph
| .mk n ns ins _ os, args => .mk n ns ins args os

/-- Entry point of the binder as the provider calls it: `graph_build` is the
freshly built parentless top-level graph, `graph` the resolved original. -/
def SetGraphOuterScopeValuesAndInputs (gB gO : Graph) (s : Store) : Graph × Store :=
  let r := bindGraph gB.name gB.inputsIncludingInitializers gB [] gO none ⟨gB.nodeArgs, s⟩
  (r.1.withNodeArgs r.2.rootNodeArgs, r.2.store)

/-- Iterated binder runs (each run is handed the graph produced by the
previous one, as repeated provider passes would). -/
def bindIter : Nat → Graph → Graph → Store → Graph × Store
| 0, gB, _, s => (gB, s)
| k + 1, gB, gO, s =>
  let r := SetGraphOuterScopeValuesAndInputs gB gO s
  bindIter k r.1 gO r.2

/-! ## Input-Set Finalizer (`SetAllGraphInputs`) -/

def Graph.withInputs : Graph → List NodeArg → Graph
| .mk n ns _ args os, ins => .mk n ns ins args os

/-- `TensorrtExecutionProvider::SetAllGraphInputs`: no-op unless the graph's
record exists and has synthesized inputs; otherwise install, as the declared
input list, the consumed entries, then the synthesized entries, then the
previously declared inputs. -/
def SetAllGraphInputs (g : Graph) (s : Store) : Graph :=
  match lookupS s g.name with
  | none => g
  | some c =>
    if c.manually_added_graph_inputs.length = 0 then g
    else g.withInputs (c.inputs_and_initializers.map Prod.snd ++ c.manually_added_graph_inputs ++ g.inputsIncludingInitializers)

/-- `SetAllGraphInputs` with the iteration orders of the two unordered
containers made explicit.  The C++ loops iterate
`context->inputs_and_initializers` (`std::unordered_map`) and
`context->manually_added_graph_inputs` (`std::unordered_set`), whose
enumeration orders the language leaves unspecified; `ci` and `si` name the
orders in which one run happens to enumerate them, so a real run supplies
some permutation of each container's entries.  `SetAllGraphInputs` above is
this function applied to the embedding's insertion orders. -/
def SetAllGraphInputsIter (g : Graph) (s : Store) (ci : List (String × NodeArg)) (si : List NodeArg) : Graph :=
  match lookupS s g.name with
  | none => g
  | some c =>
    if c.manually_added_graph_inputs.length = 0 then g
    else g.withInputs (ci.map Prod.snd ++ si ++ g.inputsIncludingInitializers)

/-! ## Derived tree vocabulary used by the statements -/

mutual
/-- All graphs of a nesting tree: the graph itself and, recursively, every
subgraph owned by one of its nodes. -/
def graphsOf : Graph → List Graph
| .mk n ns ins args os => .mk n ns ins args os :: graphsOfNodes ns

def graphsOfNodes : List (Option Node) → List Graph
| [] => []
| none :: t => graphsOfNodes t
| some nd :: t => graphsOfNode nd ++ graphsOfNodes t

def graphsOfNode : Node → List Graph
| .mk _ _ _ _ subs => graphsOfSubs subs

def graphsOfSubs : List (String × Graph) → List Graph
| [] => []
| (_, g) :: t => graphsOf g ++ graphsOfSubs t
end

/-- Names of every graph of the tree. -/
def allNamesG (g : Graph) : List String := (graphsOf g).map Graph.name

/-- Names of the proper subgraphs of the tree (every graph that has a
parent). -/
def nestedNamesG (g : Graph) : List String := (graphsOfNodes g.nodes).map Graph.name

-- sanity checks on a small nested tree

def sanityInner : Graph := .mk "inner" [] [] [] []

def sanityNode : Node := .mk "n" [⟨"a", 0⟩] [⟨"b", 1⟩] [] [("body", sanityInner)]

def sanityTop : Graph := .mk "top" [some sanityNode, none] [] [] []

/-! ## A concrete extraction

One control-flow node `n` with subgraph `body`; the original resolved node
has implicit inputs `r`, `q`, `p`.  The built subgraph has node-args for `q`
(its own declared graph input, consumed by no node) and `p` (produced by the
built control-flow node at top level), and none for `r`. -/

def argP : NodeArg := ⟨"p", 1⟩

def argQ : NodeArg := ⟨"q", 2⟩

def argR : NodeArg := ⟨"r", 3⟩

def origInner : Graph := .mk "body" [] [] [] []

def origCtrlNode : Node := .mk "n" [] [] [argR, argQ, argP] [("b", origInner)]

def origTop : Graph := .mk "top" [some origCtrlNode] [] [] []

def builtInner : Graph := .mk "body" [] [argQ] [argQ, argP] []

def builtCtrlNode : Node := .mk "n" [] [argP] [] [("b", builtInner)]

def builtTop : Graph := .mk "top" [some builtCtrlNode] [] [] []

def exStore0 : Store := BuildSubGraphContext builtTop []

def exBindRes : Graph × Store := SetGraphOuterScopeValuesAndInputs builtTop origTop exStore0

def namesOfNodes (l : List (Option Node)) : List String := (graphsOfNodes l).map Graph.name

def namesOfNode (nd : Node) : List String := (graphsOfNode nd).map Graph.name

def namesOfSubs (l : List (String × Graph)) : List String := (graphsOfSubs l).map Graph.name

/-! ## Claim C3 -/

def c3Node : Node := .mk "nd" [⟨"in1", 0⟩] [⟨"out1", 0⟩] [] []

def c3Graph : Graph := .mk "g" [some c3Node] [] [] []

def c3Stale : Store := [("g", ⟨["zzz"], [], []⟩)]

/-! ## Association-map kit for idempotence reasoning

The per-graph phase's input pass is a sequence of `operator[]` assignments,
one per node input whose name is not produced locally.  We expose that
sequence (`filtInputs`/`filtNodes`) and the replay of a sequence of
assignments (`applyA`). -/

def filtInputs (out : List String) : List NodeArg → List (String × NodeArg)
| [] => []
| a :: t => if a.name ∈ out then filtInputs out t else (a.name, a) :: filtInputs out t

def filtNodes (out : List String) : List (Option Node) → List (String × NodeArg)
| [] => []
| none :: t => filtNodes out t
| some nd :: t => filtInputs out nd.inputDefs ++ filtNodes out t

def applyA : List (String × NodeArg) → List (String × NodeArg) → List (String × NodeArg)
| [], m => m
| (k, v) :: t, m => applyA t (assignA m k v)

/-- Last value assigned to a key by a replayed assignment sequence. -/
def lastVal : List (String × NodeArg) → String → Option NodeArg
| [], _ => none
| (k, v) :: t, n =>
  match lastVal t n with
  | some w => some w
  | none => if k = n then some v else none

/-! ## Output-set lemmas -/

def outNamesNodes : List (Option Node) → List String
| [] => []
| none :: t => outNamesNodes t
| some nd :: t => nd.outputDefs.map NodeArg.name ++ outNamesNodes t

/-! ## Stability: a store on which the Context Builder is a no-op -/

mutual
/-- The store already holds, for every graph of this tree, a record that is
a fixpoint of that graph's per-graph phase. -/
def StableG (g : Graph) (t : Store) : Prop :=
  match g with
  | .mk name nodes ins args os =>
    (∃ r, lookupS t name = some r ∧ processRec (.mk name nodes ins args os) r = r) ∧
      StableNodes nodes t
termination_by structural g

def StableNodes (l : List (Option Node)) (t : Store) : Prop :=
  match l with
  | [] => True
  | none :: tl => StableNodes tl t
  | some nd :: tl => StableNode nd t ∧ StableNodes tl t
termination_by structural l

def StableNode (nd : Node) (t : Store) : Prop :=
  match nd with
  | .mk _ _ _ _ subs => StableSubs subs t
termination_by structural nd

def StableSubs (l : List (String × Graph)) (t : Store) : Prop :=
  match l with
  | [] => True
  | (_, g) :: tl => StableG g t ∧ StableSubs tl t
termination_by structural l
end

/-- A store whose records all have duplicate-free consumed keys — true of
every store representable by the C++ `unordered_map` records. -/
def WFStore (s : Store) : Prop :=
  ∀ n c, lookupS s n = some c → (keysA c.inputs_and_initializers).Nodup

/-- Store evolution of one bind run rooted at `rn`: all other bindings are
unchanged, and the record under `rn` (when present) keeps its produced and
consumed fields and only gains synthesized entries. -/
def SynthOnly (rn : String) (s s2 : Store) : Prop :=
  (∀ n, n ≠ rn → lookupS s2 n = lookupS s n) ∧
  ((lookupS s2 rn = none ∧ lookupS s rn = none) ∨
    ∃ c c2, lookupS s rn = some c ∧ lookupS s2 rn = some c2 ∧
      c2.output_args = c.output_args ∧
      c2.inputs_and_initializers = c.inputs_and_initializers ∧
      ∀ a ∈ c.manually_added_graph_inputs, a ∈ c2.manually_added_graph_inputs)

/-! ## Claim C7 -/

/-- No Scope Record of a graph that has a parent holds synthesized
entries. -/
def NestedSynthEmpty (g : Graph) (s : Store) : Prop :=
  ∀ n ∈ nestedNamesG g, ∀ c, lookupS s n = some c → c.manually_added_graph_inputs = []

/-! ## Claim C8 -/

/-- Number of synthesized entries named `v` in the record under `rn`. -/
def synthCount (s : Store) (rn v : String) : Nat :=
  match lookupS s rn with
  | none => 0
  | some c => (c.manually_added_graph_inputs.filter (fun a => a.name = v)).length

def builtTop2 : Graph := .mk "top" [some builtCtrlNode] [argQ] [] []

/-! ## Claim C1: closure of implicit inputs

`pairsG` mirrors the binder's lock-step traversal and collects, for every
built subgraph the binder recurses into, the subgraph (as it was in the
input tree — its node-arg storage and name are never changed by the
binder), its ancestor name chain, and the original owning control-flow
node whose implicit inputs the binder iterates. -/

mutual
def pairsG (gB : Graph) (anc : List String) (gO : Graph) (opn : Option Node) :
    List (Graph × List String × Node) :=
  match gB with
  | .mk name nodes ins args os =>
    (match opn with
     | none => []
     | some pn => [((.mk name nodes ins args os : Graph), anc, pn)]) ++
      pairsNodes nodes (name :: anc) gO
termination_by structural gB

def pairsNodes (l : List (Option Node)) (anc : List String) (gO : Graph) :
    List (Graph × List String × Node) :=
  match l with
  | [] => []
  | none :: t => pairsNodes t anc gO
  | some nd :: t => pairsNode nd anc gO ++ pairsNodes t anc gO
termination_by structural l

def pairsNode (nd : Node) (anc : List String) (gO : Graph) :
    List (Graph × List String × Node) :=
  match nd with
  | .mk nm _ _ _ subs =>
    pairsSubs subs anc
      (match findNodeByName gO.nodes nm with
       | none => []
       | some onode => onode.subgraphs)
      (findNodeByName gO.nodes nm)
termination_by structural nd

def pairsSubs (l : List (String × Graph)) (anc : List String)
    (origSubs : List (String × Graph)) (om : Option Node) :
    List (Graph × List String × Node) :=
  match l with
  | [] => []
  | (attr, sgB) :: t =>
    (match lookupAttr origSubs attr with
     | none => []
     | some sgO => pairsG sgB anc sgO om) ++ pairsSubs t anc origSubs om
termination_by structural l
end

/-- The closure disjunction for one implicit-input value `v` of the control
flow node owning the built subgraph named `gname` with ancestor chain
`chain`: `v` is accounted for in that subgraph's own Scope Record, or at
some ancestor scope, or among the top-level declared inputs, or in the
top-level record's synthesized set. -/
def ClosureOK (rn : String) (ri : List NodeArg) (s : Store) (gname : String)
    (chain : List String) (v : String) : Prop :=
  IsLocalValue s (viewOf gname chain) v = true ∨
  IsOuterScopeValue s (viewOf gname chain) v = true ∨
  v ∈ ri.map NodeArg.name ∨
  ∃ c, lookupS s rn = some c ∧ ∃ a ∈ c.manually_added_graph_inputs, a.name = v

/-! ## Claim C6: a concrete finalizable record

A graph whose only node consumes `a` then `b` (producing nothing), with one
already-declared input `w`; the Context Builder therefore first encounters
`a`, then `b`, and the binder has synthesized `q` into its record. -/

def argA : NodeArg := ⟨"a", 4⟩
def argB : NodeArg := ⟨"b", 5⟩

def c6Node : Node := .mk "m" [argA, argB] [] [] []
def c6Graph : Graph := .mk "gfin" [some c6Node] [⟨"w", 6⟩] [] []

def c6Store : Store := insertSynth (BuildSubGraphContext c6Graph []) "gfin" argQ

/-! ## Claim C9 -/

/-- Claim C9: during `bind`, an implicit input of the original owning node
for which the built subgraph's graph-local node-arg lookup fails is skipped
entirely: the loop body returns the built subgraph and the whole binder
state (top-level node-arg storage and store, hence also this subgraph's
store entry) unchanged. -/
theorem stepImplicit_skips_unreferenced (rn : String) (ri : List NodeArg) (anc : List String)
    (p : Graph × BindSt) (v : NodeArg) (h : p.1.getNodeArg v.name = none) :
    stepImplicit rn ri anc p v = p := by
  unfold stepImplicit
  rw [h]

/-- Witness for C9: in the concrete extraction, implicit input `r` has no
node-arg in the built subgraph `body`, and the loop body leaves the
subgraph and the state untouched, while the sibling implicit input `q`
does get marked on the same state. -/
theorem stepImplicit_skips_unreferenced_witness :
    stepImplicit "top" [] ["top"] (builtInner, ⟨[], exStore0⟩) argR = (builtInner, ⟨[], exStore0⟩) :=
  stepImplicit_skips_unreferenced "top" [] ["top"] (builtInner, ⟨[], exStore0⟩) argR (by decide)

/-! ## Claim C10 -/

/-- Helper for C10: the ancestor-closure query is false as soon as the value
is unaccounted at the graph itself and at every ancestor. -/
theorem iioo_false_of_unaccounted (s : Store) (n : String) :
    ∀ g : GraphView, IsLocalValue s g n = false →
      (∀ a ∈ ancestorsOf g, IsLocalValue s a n = false) →
      ∀ ca, IsInputInitializerOrOutput s g n ca = false
| .mk nm none, h1, _, ca => by
  simp [IsInputInitializerOrOutput, h1]
| .mk nm (some p), h1, h2, ca => by
  have hp : IsLocalValue s p n = false := h2 p (by simp [ancestorsOf])
  have hrec := iioo_false_of_unaccounted s n p hp
    (fun a ha => h2 a (by simp [ancestorsOf]; exact Or.inr ha)) ca
  simp [IsInputInitializerOrOutput, h1, hrec]

/-- Claim C10: when the store has no entry under a graph's name,
`IsLocalValue` answers `false` for every value name (it neither fails nor
creates an entry), and `IsInputInitializerOrOutput` answers `false` for
either `check_ancestors` flag whenever, additionally, no ancestor's store
entry accounts for the name; all such queries are total. -/
theorem isLocalValue_unpopulated (s : Store) (g : GraphView) (n : String)
    (h : lookupS s g.name = none) :
    IsLocalValue s g n = false ∧
      ∀ ca, (∀ a ∈ ancestorsOf g, IsLocalValue s a n = false) →
        IsInputInitializerOrOutput s g n ca = false := by
  have h1 : IsLocalValue s g n = false := by
    unfold IsLocalValue
    rw [h]
  exact ⟨h1, fun ca h2 => iioo_false_of_unaccounted s n g h1 h2 ca⟩

/-- Witness for C10 at a concrete two-level view over a store that only
knows the parent (which does not account for `z`). -/
theorem isLocalValue_unpopulated_witness :
    IsLocalValue [("par", ⟨["x"], [], []⟩)] (.mk "child" (some (.mk "par" none))) "z" = false ∧
      ∀ ca, (∀ a ∈ ancestorsOf (.mk "child" (some (.mk "par" none))),
          IsLocalValue [("par", ⟨["x"], [], []⟩)] a "z" = false) →
        IsInputInitializerOrOutput [("par", ⟨["x"], [], []⟩)] (.mk "child" (some (.mk "par" none))) "z" ca = false :=
  isLocalValue_unpopulated [("par", ⟨["x"], [], []⟩)] (.mk "child" (some (.mk "par" none))) "z" (by decide)

/-! ## Claim C2 -/

/-- Helper for C2: a true ancestor-closure query names a scope, at the graph
itself or above it, whose record accounts for the value. -/
theorem iioo_true_accounted (s : Store) (n : String) :
    ∀ p : GraphView, IsInputInitializerOrOutput s p n true = true →
      ∃ a, (a = p ∨ a ∈ ancestorsOf p) ∧ IsLocalValue s a n = true
| .mk nm none, h => by
  simp [IsInputInitializerOrOutput] at h
  exact ⟨.mk nm none, Or.inl rfl, h⟩
| .mk nm (some pp), h => by
  simp [IsInputInitializerOrOutput] at h
  rcases h with h | h
  · exact ⟨.mk nm (some pp), Or.inl rfl, h⟩
  · obtain ⟨a, ha, hl⟩ := iioo_true_accounted s n pp h
    refine ⟨a, Or.inr ?_, hl⟩
    simp [ancestorsOf]
    rcases ha with ha | ha
    · exact Or.inl ha
    · exact Or.inr ha

/-- Counterexample to C2 as stated: `is_outer_scope` can be true while the
value is also local to the graph itself — the classifier never checks
non-locality.  Here both the child's and the parent's records account for
`x`. -/
theorem isOuterScopeValue_counterexample :
    IsOuterScopeValue [("child", ⟨["x"], [], []⟩), ("par", ⟨["x"], [], []⟩)]
        (.mk "child" (some (.mk "par" none))) "x" = true ∧
      IsLocalValue [("child", ⟨["x"], [], []⟩), ("par", ⟨["x"], [], []⟩)]
        (.mk "child" (some (.mk "par" none))) "x" = true := by
  decide

/-- Claim C2 (amended): `is_outer_scope(g, n)` is true exactly when `g` has
a parent and `is_input_or_output(parent, n, check_ancestors := true)` holds;
consequently, whenever it is true, `n` is accounted for (produced or
consumed) at some ancestor scope of `g` — though it may additionally be
local to `g` itself. -/
theorem isOuterScopeValue_spec (s : Store) (g : GraphView) (n : String) :
    (IsOuterScopeValue s g n = true ↔
      ∃ p, g.parent = some p ∧ IsInputInitializerOrOutput s p n true = true) ∧
      (IsOuterScopeValue s g n = true →
        ∃ a ∈ ancestorsOf g, IsLocalValue s a n = true) := by
  obtain ⟨nm, p⟩ := g
  constructor
  · cases p with
    | none => simp [IsOuterScopeValue, GraphView.parent]
    | some pv => simp [IsOuterScopeValue, GraphView.parent]
  · intro h
    cases p with
    | none => simp [IsOuterScopeValue, GraphView.parent] at h
    | some pv =>
      simp only [IsOuterScopeValue, GraphView.parent] at h
      obtain ⟨a, ha, hl⟩ := iioo_true_accounted s n pv h
      refine ⟨a, ?_, hl⟩
      simp [ancestorsOf]
      rcases ha with ha | ha
      · exact Or.inl ha
      · exact Or.inr ha

/-- Witness for C2: the amended theorem applied at a configuration where the
value is accounted only at the grandparent. -/
theorem isOuterScopeValue_spec_witness :
    ∃ a ∈ ancestorsOf (.mk "c" (some (.mk "m" (some (.mk "t" none))))),
      IsLocalValue [("t", ⟨["w"], [], []⟩)] a "w" = true :=
  (isOuterScopeValue_spec [("t", ⟨["w"], [], []⟩)]
    (.mk "c" (some (.mk "m" (some (.mk "t" none))))) "w").2 (by decide)

/-! ## Store and name plumbing -/

theorem lookupS_append_ne : ∀ (s : Store) (m : String) (c : SubGraphContext) (n : String),
    m ≠ n → lookupS (s ++ [(m, c)]) n = lookupS s n
| [], m, c, n, h => by simp [lookupS, h]
| (k, v) :: t, m, c, n, h => by
  simp only [List.cons_append, lookupS]
  by_cases hk : k = n
  · simp [hk]
  · simp [hk, lookupS_append_ne t m c n h]

theorem lookupS_append_self (s : Store) (m : String) (c : SubGraphContext)
    (h : lookupS s m = none) : lookupS (s ++ [(m, c)]) m = some c := by
  induction s with
  | nil => simp [lookupS]
  | cons p t ih =>
    obtain ⟨k, v⟩ := p
    simp only [lookupS] at h
    by_cases hk : k = m
    · simp [hk] at h
    · simp only [List.cons_append, lookupS, if_neg hk]
      exact ih (by simpa [hk] using h)

theorem lookupS_updateS : ∀ (s : Store) (m : String) (c : SubGraphContext) (n : String),
    lookupS (updateS s m c) n = if m = n then some c else lookupS s n
| [], m, c, n => by simp [updateS, lookupS]
| (k, v) :: t, m, c, n => by
  simp only [updateS]
  by_cases hkm : k = m
  · subst hkm
    simp only [if_pos rfl, lookupS]
    by_cases hkn : k = n
    · simp [hkn]
    · simp [hkn]
  · rw [if_neg hkm]
    simp only [lookupS]
    by_cases hkn : k = n
    · have hmn : m ≠ n := by rw [← hkn]; exact fun h => hkm h.symm
      simp [hkn, hmn]
    · simp [hkn, lookupS_updateS t m c n]

theorem allNamesG_mk (n : String) (ns : List (Option Node)) (ins args : List NodeArg) (os : List String) :
    allNamesG (.mk n ns ins args os) = n :: namesOfNodes ns := rfl

theorem namesOfNodes_nil : namesOfNodes [] = [] := rfl

theorem namesOfNodes_none (t : List (Option Node)) : namesOfNodes (none :: t) = namesOfNodes t := rfl

theorem namesOfNodes_some (nd : Node) (t : List (Option Node)) :
    namesOfNodes (some nd :: t) = namesOfNode nd ++ namesOfNodes t := by
  simp [namesOfNodes, namesOfNode, graphsOfNodes]

theorem namesOfNode_mk (nm : String) (i o im : List NodeArg) (subs : List (String × Graph)) :
    namesOfNode (.mk nm i o im subs) = namesOfSubs subs := rfl

theorem namesOfSubs_nil : namesOfSubs [] = [] := rfl

theorem namesOfSubs_cons (a : String) (g : Graph) (t : List (String × Graph)) :
    namesOfSubs ((a, g) :: t) = allNamesG g ++ namesOfSubs t := by
  simp [namesOfSubs, allNamesG, graphsOfSubs]

/-! ## Context Builder: frame lemma -/

mutual
theorem bsc_frame (g : Graph) (s : Store) (n : String) (h : n ∉ allNamesG g) :
    lookupS (BuildSubGraphContext g s) n = lookupS s n := by
  match g with
  | .mk name nodes ins args os =>
    rw [allNamesG_mk] at h
    have hname : name ≠ n := fun he => h (he ▸ List.mem_cons_self _ _)
    have hns : n ∉ namesOfNodes nodes := fun hm => h (List.mem_cons_of_mem _ hm)
    simp only [BuildSubGraphContext]
    rw [lookupS_updateS, if_neg hname]
    by_cases h1 : (lookupS (bscNodes nodes s) name).isSome
    · rw [if_pos h1]
      exact bscNodes_frame nodes s n hns
    · rw [if_neg h1, lookupS_append_ne _ _ _ _ hname]
      exact bscNodes_frame nodes s n hns

theorem bscNodes_frame (l : List (Option Node)) (s : Store) (n : String) (h : n ∉ namesOfNodes l) :
    lookupS (bscNodes l s) n = lookupS s n := by
  match l with
  | [] => rfl
  | none :: t =>
    rw [namesOfNodes_none] at h
    simpa only [bscNodes] using bscNodes_frame t s n h
  | some nd :: t =>
    rw [namesOfNodes_some] at h
    simp only [bscNodes]
    rw [bscNodes_frame t _ n (fun hm => h (List.mem_append_right _ hm))]
    exact bscNode_frame nd s n (fun hm => h (List.mem_append_left _ hm))

theorem bscNode_frame (nd : Node) (s : Store) (n : String) (h : n ∉ namesOfNode nd) :
    lookupS (bscNode nd s) n = lookupS s n := by
  match nd with
  | .mk nm i o im subs =>
    rw [namesOfNode_mk] at h
    simpa only [bscNode] using bscSubs_frame subs s n h

theorem bscSubs_frame (l : List (String × Graph)) (s : Store) (n : String) (h : n ∉ namesOfSubs l) :
    lookupS (bscSubs l s) n = lookupS s n := by
  match l with
  | [] => rfl
  | (a, g) :: t =>
    rw [namesOfSubs_cons] at h
    simp only [bscSubs]
    rw [bscSubs_frame t _ n (fun hm => h (List.mem_append_right _ hm))]
    exact bsc_frame g s n (fun hm => h (List.mem_append_left _ hm))
end

/-! ## Context Builder: records built from a fresh store

With unique graph names and a store fresh for all of them, the Scope Record
stored for each graph of the tree is exactly the per-graph phase applied to
an empty record. -/

mutual
theorem bsc_fresh_rec (g : Graph) (s : Store)
    (hnd : (allNamesG g).Nodup) (hf : ∀ n ∈ allNamesG g, lookupS s n = none) :
    ∀ h ∈ graphsOf g, lookupS (BuildSubGraphContext g s) h.name = some (processRec h emptyCtx) := by
  match g with
  | .mk name nodes ins args os =>
    rw [allNamesG_mk] at hnd hf
    have hname : name ∉ namesOfNodes nodes := (List.nodup_cons.mp hnd).1
    have hnd2 : (namesOfNodes nodes).Nodup := (List.nodup_cons.mp hnd).2
    have hf0 : lookupS s name = none := hf name (List.mem_cons_self _ _)
    have hfns : ∀ n ∈ namesOfNodes nodes, lookupS s n = none :=
      fun n hn => hf n (List.mem_cons_of_mem _ hn)
    have hs1 : lookupS (bscNodes nodes s) name = none := by
      rw [bscNodes_frame nodes s name hname]; exact hf0
    intro h hh
    simp only [graphsOf] at hh
    rcases List.mem_cons.mp hh with rfl | hh2
    · simp only [BuildSubGraphContext]
      rw [if_neg (by simp [hs1])]
      rw [lookupS_append_self _ _ _ hs1]
      simp only [Option.getD_some]
      have hng : Graph.name (.mk name nodes ins args os) = name := rfl
      rw [hng, lookupS_updateS, if_pos rfl]
    · have hrec := bscNodes_fresh_rec nodes s hnd2 hfns h hh2
      have hmem : h.name ∈ namesOfNodes nodes := List.mem_map_of_mem Graph.name hh2
      have hne : name ≠ h.name := fun he => hname (he ▸ hmem)
      simp only [BuildSubGraphContext]
      rw [if_neg (by simp [hs1])]
      rw [lookupS_updateS, if_neg hne, lookupS_append_ne _ _ _ _ hne]
      exact hrec

theorem bscNodes_fresh_rec (l : List (Option Node)) (s : Store)
    (hnd : (namesOfNodes l).Nodup) (hf : ∀ n ∈ namesOfNodes l, lookupS s n = none) :
    ∀ h ∈ graphsOfNodes l, lookupS (bscNodes l s) h.name = some (processRec h emptyCtx) := by
  match l with
  | [] =>
    intro h hh
    simp [graphsOfNodes] at hh
  | none :: t =>
    rw [namesOfNodes_none] at hnd hf
    intro h hh
    simp only [graphsOfNodes] at hh
    exact bscNodes_fresh_rec t s hnd hf h hh
  | some nd :: t =>
    rw [namesOfNodes_some] at hnd hf
    obtain ⟨hnd1, hnd2, hdisj⟩ := List.nodup_append.mp hnd
    intro h hh
    simp only [graphsOfNodes] at hh
    simp only [bscNodes]
    rcases List.mem_append.mp hh with hh1 | hh2
    · have hrec := bscNode_fresh_rec nd s hnd1
        (fun n hn => hf n (List.mem_append_left _ hn)) h hh1
      have hmem : h.name ∈ namesOfNode nd := List.mem_map_of_mem Graph.name hh1
      rw [bscNodes_frame t _ h.name (fun hc => hdisj hmem hc)]
      exact hrec
    · exact bscNodes_fresh_rec t (bscNode nd s) hnd2
        (fun n hn => by
          rw [bscNode_frame nd s n (fun hc => hdisj hc hn)]
          exact hf n (List.mem_append_right _ hn)) h hh2

theorem bscNode_fresh_rec (nd : Node) (s : Store)
    (hnd : (namesOfNode nd).Nodup) (hf : ∀ n ∈ namesOfNode nd, lookupS s n = none) :
    ∀ h ∈ graphsOfNode nd, lookupS (bscNode nd s) h.name = some (processRec h emptyCtx) := by
  match nd with
  | .mk nm i o im subs =>
    rw [namesOfNode_mk] at hnd hf
    intro h hh
    simp only [graphsOfNode] at hh
    simpa only [bscNode] using bscSubs_fresh_rec subs s hnd hf h hh

theorem bscSubs_fresh_rec (l : List (String × Graph)) (s : Store)
    (hnd : (namesOfSubs l).Nodup) (hf : ∀ n ∈ namesOfSubs l, lookupS s n = none) :
    ∀ h ∈ graphsOfSubs l, lookupS (bscSubs l s) h.name = some (processRec h emptyCtx) := by
  match l with
  | [] =>
    intro h hh
    simp [graphsOfSubs] at hh
  | (a, g) :: t =>
    rw [namesOfSubs_cons] at hnd hf
    obtain ⟨hnd1, hnd2, hdisj⟩ := List.nodup_append.mp hnd
    intro h hh
    simp only [graphsOfSubs] at hh
    simp only [bscSubs]
    rcases List.mem_append.mp hh with hh1 | hh2
    · have hrec := bsc_fresh_rec g s hnd1
        (fun n hn => hf n (List.mem_append_left _ hn)) h hh1
      have hmem : h.name ∈ allNamesG g := List.mem_map_of_mem Graph.name hh1
      rw [bscSubs_frame t _ h.name (fun hc => hdisj hmem hc)]
      exact hrec
    · exact bscSubs_fresh_rec t (BuildSubGraphContext g s) hnd2
        (fun n hn => by
          rw [bsc_frame g s n (fun hc => hdisj hc hn)]
          exact hf n (List.mem_append_right _ hn)) h hh2
end

theorem mem_graphsOf_self (g : Graph) : g ∈ graphsOf g := by
  match g with
  | .mk n ns ins args os => simp [graphsOf]

/-- Counterexample to C3 as stated: `BuildSubGraphContext` does not
recompute a pre-existing record from scratch — it merges into it.  A stale
record under the graph's name survives into the result, so building over a
populated store differs from building over a fresh one. -/
theorem buildSubGraphContext_stale_counterexample :
    lookupS (BuildSubGraphContext c3Graph c3Stale) "g" ≠
      lookupS (BuildSubGraphContext c3Graph []) "g" := by
  decide

/-- Claim C3 (amended): when the store has no entry under any graph name
occurring in the tree (names unique), the Scope Record stored under the
graph's name equals the one a fresh-store run produces; when an entry
already exists under that name, its prior contents are merged into (and can
survive in) the resulting record rather than being recomputed from
scratch. -/
theorem buildSubGraphContext_fresh_agrees (g : Graph) (s : Store)
    (hnd : (allNamesG g).Nodup) (hf : ∀ n ∈ allNamesG g, lookupS s n = none) :
    lookupS (BuildSubGraphContext g s) g.name = lookupS (BuildSubGraphContext g []) g.name := by
  rw [bsc_fresh_rec g s hnd hf g (mem_graphsOf_self g),
    bsc_fresh_rec g [] hnd (fun n _ => rfl) g (mem_graphsOf_self g)]

/-- Witness for C3: building over an unrelated populated store agrees at
the graph's name with building over the empty store. -/
theorem buildSubGraphContext_fresh_agrees_witness :
    lookupS (BuildSubGraphContext c3Graph [("other", ⟨["zzz"], [], []⟩)]) c3Graph.name =
      lookupS (BuildSubGraphContext c3Graph []) c3Graph.name :=
  buildSubGraphContext_fresh_agrees c3Graph [("other", ⟨["zzz"], [], []⟩)]
    (by decide) (by decide)

/-! ## Claim C5 -/

theorem keysA_assignA (m : List (String × NodeArg)) (k : String) (v : NodeArg) (x : String)
    (h : x ∈ keysA (assignA m k v)) : x = k ∨ x ∈ keysA m := by
  induction m with
  | nil => simpa [assignA, keysA] using h
  | cons p t ih =>
    obtain ⟨k', v'⟩ := p
    simp only [assignA] at h
    by_cases hk : k' = k
    · rw [if_pos hk] at h
      simp only [keysA, List.map_cons, List.mem_cons] at h ⊢
      rcases h with h | h
      · exact Or.inr (Or.inl h)
      · exact Or.inr (Or.inr h)
    · rw [if_neg hk] at h
      simp only [keysA, List.map_cons, List.mem_cons] at h ⊢
      rcases h with h | h
      · exact Or.inr (Or.inl h)
      · rcases ih h with h2 | h2
        · exact Or.inl h2
        · exact Or.inr (Or.inr h2)

theorem keysA_assignInputs (out : List String) (x : String) :
    ∀ (args : List NodeArg) (m : List (String × NodeArg)),
      x ∈ keysA (assignInputs out m args) → x ∈ keysA m ∨ x ∉ out
| [], m, h => Or.inl h
| a :: t, m, h => by
  simp only [assignInputs] at h
  by_cases ha : a.name ∈ out
  · rw [if_pos ha] at h
    exact keysA_assignInputs out x t m h
  · rw [if_neg ha] at h
    rcases keysA_assignInputs out x t (assignA m a.name a) h with h2 | h2
    · rcases keysA_assignA m a.name a x h2 with h3 | h3
      · exact Or.inr (h3 ▸ ha)
      · exact Or.inl h3
    · exact Or.inr h2

theorem keysA_collectInputsNodes (out : List String) (x : String) :
    ∀ (l : List (Option Node)) (m : List (String × NodeArg)),
      x ∈ keysA (collectInputsNodes out m l) → x ∈ keysA m ∨ x ∉ out
| [], m, h => Or.inl h
| none :: t, m, h => keysA_collectInputsNodes out x t m h
| some nd :: t, m, h => by
  simp only [collectInputsNodes] at h
  rcases keysA_collectInputsNodes out x t _ h with h2 | h2
  · exact keysA_assignInputs out x nd.inputDefs m h2
  · exact Or.inr h2

theorem processRec_emptyCtx_disjoint (g : Graph) :
    ∀ x ∈ (processRec g emptyCtx).output_args,
      x ∉ keysA (processRec g emptyCtx).inputs_and_initializers := by
  intro x hx hk
  simp only [processRec, emptyCtx] at hx hk
  rcases keysA_collectInputsNodes _ x g.nodes [] hk with h2 | h2
  · simp [keysA] at h2
  · exact h2 hx

/-- Claim C5: after the Context Builder runs from an empty store on a tree
with unique graph names, every Scope Record in the store has its produced
set disjoint from the key set of its consumed map. -/
theorem scopeRecord_disjoint (g : Graph) (hnd : (allNamesG g).Nodup)
    (n : String) (c : SubGraphContext)
    (hc : lookupS (BuildSubGraphContext g []) n = some c) :
    recDisjoint c := by
  by_cases hmem : n ∈ allNamesG g
  · obtain ⟨h, hh, hname⟩ := List.mem_map.mp hmem
    have hrec := bsc_fresh_rec g [] hnd (fun _ _ => rfl) h hh
    rw [hname, hc] at hrec
    have : c = processRec h emptyCtx := Option.some.inj hrec
    subst this
    intro x hx
    exact processRec_emptyCtx_disjoint h x hx
  · rw [bsc_frame g [] n hmem] at hc
    simp [lookupS] at hc

/-- Witness for C5: the concrete extraction's top-level record. -/
theorem scopeRecord_disjoint_witness :
    recDisjoint ⟨["p"], [], []⟩ :=
  scopeRecord_disjoint builtTop (by decide) "top" ⟨["p"], [], []⟩ (by decide)

theorem assignInputs_eq_applyA (out : List String) :
    ∀ (args : List NodeArg) (m : List (String × NodeArg)),
      assignInputs out m args = applyA (filtInputs out args) m
| [], m => rfl
| a :: t, m => by
  simp only [assignInputs, filtInputs]
  by_cases ha : a.name ∈ out
  · rw [if_pos ha, if_pos ha]
    exact assignInputs_eq_applyA out t m
  · rw [if_neg ha, if_neg ha]
    simp only [applyA]
    exact assignInputs_eq_applyA out t _

theorem applyA_append : ∀ (p q m : List (String × NodeArg)),
    applyA (p ++ q) m = applyA q (applyA p m)
| [], q, m => rfl
| (k, v) :: t, q, m => by
  simp only [List.cons_append, applyA]
  exact applyA_append t q _

theorem collectInputsNodes_eq_applyA (out : List String) :
    ∀ (l : List (Option Node)) (m : List (String × NodeArg)),
      collectInputsNodes out m l = applyA (filtNodes out l) m
| [], m => rfl
| none :: t, m => by
  simp only [collectInputsNodes, filtNodes]
  exact collectInputsNodes_eq_applyA out t m
| some nd :: t, m => by
  simp only [collectInputsNodes, filtNodes]
  rw [applyA_append, ← assignInputs_eq_applyA]
  exact collectInputsNodes_eq_applyA out t _

theorem lookupA_assignA : ∀ (m : List (String × NodeArg)) (k : String) (v : NodeArg) (n : String),
    lookupA (assignA m k v) n = if k = n then some v else lookupA m n
| [], k, v, n => by simp [assignA, lookupA]
| (k', v') :: t, k, v, n => by
  simp only [assignA]
  by_cases hk : k' = k
  · subst hk
    simp only [if_pos rfl, lookupA]
    by_cases hn : k' = n
    · simp [hn]
    · simp [hn]
  · rw [if_neg hk]
    simp only [lookupA]
    by_cases hn : k' = n
    · have hki : k ≠ n := fun he => hk (hn.trans he.symm)
      simp [hn, hki]
    · simp [hn, lookupA_assignA t k v n]

theorem lookupA_applyA : ∀ (p m : List (String × NodeArg)) (n : String),
    lookupA (applyA p m) n =
      match lastVal p n with
      | some w => some w
      | none => lookupA m n
| [], m, n => by simp [applyA, lastVal]
| (k, v) :: t, m, n => by
  simp only [applyA, lastVal]
  rw [lookupA_applyA t _ n, lookupA_assignA]
  cases lastVal t n with
  | some w => simp
  | none =>
    by_cases hkn : k = n
    · simp [hkn]
    · simp [hkn]

theorem keysA_cons (a : String) (b : NodeArg) (l : List (String × NodeArg)) :
    keysA ((a, b) :: l) = a :: keysA l := rfl

theorem keysA_assignA_mem : ∀ (m : List (String × NodeArg)) (k : String) (v : NodeArg),
    k ∈ keysA m → keysA (assignA m k v) = keysA m
| [], k, v, h => by simp [keysA] at h
| (k', v') :: t, k, v, h => by
  rw [keysA_cons] at h
  simp only [assignA]
  by_cases hk : k' = k
  · rw [if_pos hk, keysA_cons, keysA_cons]
  · rw [if_neg hk, keysA_cons, keysA_cons]
    rcases List.mem_cons.mp h with he | hm
    · exact absurd he.symm hk
    · rw [keysA_assignA_mem t k v hm]

theorem keysA_assignA_not_mem : ∀ (m : List (String × NodeArg)) (k : String) (v : NodeArg),
    k ∉ keysA m → keysA (assignA m k v) = keysA m ++ [k]
| [], k, v, _ => by simp [assignA, keysA]
| (k', v') :: t, k, v, h => by
  rw [keysA_cons] at h
  simp only [List.mem_cons, not_or] at h
  obtain ⟨h1, h2⟩ := h
  have hne : ¬(k' = k) := fun he => h1 he.symm
  simp only [assignA, if_neg hne]
  rw [keysA_cons, keysA_cons, List.cons_append, keysA_assignA_not_mem t k v h2]

theorem keysA_applyA_of_keys : ∀ (p m : List (String × NodeArg)),
    (∀ q ∈ p, q.1 ∈ keysA m) → keysA (applyA p m) = keysA m
| [], m, _ => rfl
| (k, v) :: t, m, hmem => by
  simp only [applyA]
  have hk : k ∈ keysA m := hmem (k, v) (List.mem_cons_self _ _)
  have hkeys : keysA (assignA m k v) = keysA m := keysA_assignA_mem m k v hk
  rw [keysA_applyA_of_keys t (assignA m k v)
    (fun q hq => by rw [hkeys]; exact hmem q (List.mem_cons_of_mem _ hq))]
  exact hkeys

theorem keysA_subset_assignA : ∀ (m : List (String × NodeArg)) (k : String) (v : NodeArg),
    keysA m ⊆ keysA (assignA m k v) := by
  intro m k v
  by_cases hk : k ∈ keysA m
  · rw [keysA_assignA_mem m k v hk]
    exact fun x hx => hx
  · rw [keysA_assignA_not_mem m k v hk]
    exact List.subset_append_left _ _

theorem mem_keysA_assignA_self (m : List (String × NodeArg)) (k : String) (v : NodeArg) :
    k ∈ keysA (assignA m k v) := by
  by_cases hk : k ∈ keysA m
  · rw [keysA_assignA_mem m k v hk]; exact hk
  · rw [keysA_assignA_not_mem m k v hk]
    simp

theorem keysA_subset_applyA : ∀ (p m : List (String × NodeArg)),
    keysA m ⊆ keysA (applyA p m)
| [], m => by simp [applyA]
| (k, v) :: t, m => by
  simp only [applyA]
  exact (keysA_subset_assignA m k v).trans (keysA_subset_applyA t _)

theorem keysA_mem_applyA : ∀ (p m : List (String × NodeArg)) (q : String × NodeArg),
    q ∈ p → q.1 ∈ keysA (applyA p m)
| [], m, q, hq => by simp at hq
| (k, v) :: t, m, q, hq => by
  simp only [applyA]
  rcases List.mem_cons.mp hq with he | hq2
  · have hin : q.1 ∈ keysA (assignA m k v) := by
      rw [he]
      exact mem_keysA_assignA_self m k v
    exact keysA_subset_applyA t _ hin
  · exact keysA_mem_applyA t _ q hq2

theorem nodup_keysA_assignA (m : List (String × NodeArg)) (k : String) (v : NodeArg)
    (h : (keysA m).Nodup) : (keysA (assignA m k v)).Nodup := by
  by_cases hk : k ∈ keysA m
  · rw [keysA_assignA_mem m k v hk]; exact h
  · rw [keysA_assignA_not_mem m k v hk]
    simp [List.nodup_append, h, hk]

theorem nodup_keysA_applyA : ∀ (p m : List (String × NodeArg)),
    (keysA m).Nodup → (keysA (applyA p m)).Nodup
| [], m, h => h
| (k, v) :: t, m, h => by
  simp only [applyA]
  exact nodup_keysA_applyA t _ (nodup_keysA_assignA m k v h)

theorem lookupA_eq_none_of_not_mem : ∀ (m : List (String × NodeArg)) (n : String),
    n ∉ keysA m → lookupA m n = none
| [], n, _ => rfl
| (k, v) :: t, n, h => by
  rw [keysA_cons] at h
  simp only [List.mem_cons, not_or] at h
  have hne : ¬(k = n) := fun he => h.1 he.symm
  simp only [lookupA, if_neg hne]
  exact lookupA_eq_none_of_not_mem t n h.2

theorem assocExt : ∀ (m1 m2 : List (String × NodeArg)), (keysA m1).Nodup →
    keysA m1 = keysA m2 → (∀ n, lookupA m1 n = lookupA m2 n) → m1 = m2
| [], [], _, _, _ => rfl
| [], (k, v) :: t, _, hk, _ => by simp [keysA] at hk
| (k, v) :: t, [], _, hk, _ => by simp [keysA] at hk
| (k1, v1) :: t1, (k2, v2) :: t2, hnd, hk, hl => by
  rw [keysA_cons, keysA_cons] at hk
  injection hk with hk12 hkt
  subst hk12
  rw [keysA_cons] at hnd
  obtain ⟨hnot, hnd2⟩ := List.nodup_cons.mp hnd
  have hv : v1 = v2 := by
    have h := hl k1
    simpa [lookupA] using h
  subst hv
  have ht : t1 = t2 := by
    refine assocExt t1 t2 hnd2 hkt (fun n => ?_)
    by_cases hn : k1 = n
    · subst hn
      rw [lookupA_eq_none_of_not_mem t1 k1 hnot,
        lookupA_eq_none_of_not_mem t2 k1 (hkt ▸ hnot)]
    · have h := hl n
      simpa [lookupA, if_neg hn] using h
  rw [ht]

theorem applyA_applyA (p m : List (String × NodeArg)) (h : (keysA m).Nodup) :
    applyA p (applyA p m) = applyA p m := by
  refine assocExt _ _ (nodup_keysA_applyA p _ (nodup_keysA_applyA p m h)) ?_ ?_
  · exact keysA_applyA_of_keys p _ (fun q hq => keysA_mem_applyA p m q hq)
  · intro n
    rw [lookupA_applyA, lookupA_applyA]
    cases lastVal p n with
    | some w => simp
    | none => simp

theorem mem_insertStr (l : List String) (x y : String) :
    y ∈ insertStr l x ↔ y ∈ l ∨ y = x := by
  unfold insertStr
  by_cases h : x ∈ l
  · rw [if_pos h]
    constructor
    · exact Or.inl
    · rintro (hy | rfl)
      · exact hy
      · exact h
  · rw [if_neg h]
    simp

theorem mem_insertOutputs : ∀ (args : List NodeArg) (o : List String) (y : String),
    y ∈ insertOutputs o args ↔ y ∈ o ∨ y ∈ args.map NodeArg.name
| [], o, y => by simp [insertOutputs]
| a :: t, o, y => by
  simp only [insertOutputs, List.map_cons, List.mem_cons]
  rw [mem_insertOutputs t _ y, mem_insertStr]
  tauto

theorem insertOutputs_of_subset : ∀ (args : List NodeArg) (o : List String),
    (∀ a ∈ args, a.name ∈ o) → insertOutputs o args = o
| [], o, _ => rfl
| a :: t, o, h => by
  simp only [insertOutputs]
  rw [show insertStr o a.name = o from if_pos (h a (List.mem_cons_self _ _))]
  exact insertOutputs_of_subset t o (fun b hb => h b (List.mem_cons_of_mem _ hb))

theorem mem_collectOutputsNodes : ∀ (l : List (Option Node)) (o : List String) (y : String),
    y ∈ collectOutputsNodes o l ↔ y ∈ o ∨ y ∈ outNamesNodes l
| [], o, y => by simp [collectOutputsNodes, outNamesNodes]
| none :: t, o, y => by
  simp only [collectOutputsNodes, outNamesNodes]
  exact mem_collectOutputsNodes t o y
| some nd :: t, o, y => by
  simp only [collectOutputsNodes, outNamesNodes, List.mem_append]
  rw [mem_collectOutputsNodes t _ y, mem_insertOutputs]
  tauto

theorem collectOutputsNodes_of_subset : ∀ (l : List (Option Node)) (o : List String),
    (∀ x ∈ outNamesNodes l, x ∈ o) → collectOutputsNodes o l = o
| [], o, _ => rfl
| none :: t, o, h => by
  simp only [collectOutputsNodes]
  exact collectOutputsNodes_of_subset t o (by simpa [outNamesNodes] using h)
| some nd :: t, o, h => by
  simp only [collectOutputsNodes]
  simp only [outNamesNodes] at h
  rw [insertOutputs_of_subset nd.outputDefs o
    (fun a ha => h a.name (List.mem_append_left _ (List.mem_map_of_mem NodeArg.name ha)))]
  exact collectOutputsNodes_of_subset t o (fun x hx => h x (List.mem_append_right _ hx))

theorem collectOutputsNodes_idem (o : List String) (l : List (Option Node)) :
    collectOutputsNodes (collectOutputsNodes o l) l = collectOutputsNodes o l :=
  collectOutputsNodes_of_subset l _ (fun x hx => (mem_collectOutputsNodes l o x).mpr (Or.inr hx))

/-- Re-running the per-graph record phase on its own result changes nothing
(for a record whose consumed map has no duplicate keys, as is true of every
C++-representable record). -/
theorem processRec_processRec (g : Graph) (c : SubGraphContext)
    (h : (keysA c.inputs_and_initializers).Nodup) :
    processRec g (processRec g c) = processRec g c := by
  simp only [processRec]
  rw [collectOutputsNodes_idem]
  rw [collectInputsNodes_eq_applyA, collectInputsNodes_eq_applyA]
  rw [applyA_applyA _ _ h]

theorem updateS_self : ∀ (s : Store) (n : String) (c : SubGraphContext),
    lookupS s n = some c → updateS s n c = s
| [], n, c, h => by simp [lookupS] at h
| (k, v) :: t, n, c, h => by
  simp only [lookupS] at h
  simp only [updateS]
  by_cases hk : k = n
  · rw [if_pos hk]
    rw [if_pos hk] at h
    injection h with hv
    rw [hv]
  · rw [if_neg hk]
    rw [if_neg hk] at h
    rw [updateS_self t n c h]

mutual
theorem stableG_fix (g : Graph) (t : Store) (h : StableG g t) :
    BuildSubGraphContext g t = t := by
  match g with
  | .mk name nodes ins args os =>
    obtain ⟨⟨r, hr, hfix⟩, hns⟩ := h
    simp only [BuildSubGraphContext]
    rw [stableNodes_fix nodes t hns]
    rw [if_pos (by simp [hr])]
    rw [hr]
    simp only [Option.getD_some]
    rw [hfix]
    exact updateS_self t name r hr

theorem stableNodes_fix (l : List (Option Node)) (t : Store) (h : StableNodes l t) :
    bscNodes l t = t := by
  match l with
  | [] => rfl
  | none :: tl =>
    simp only [StableNodes] at h
    simpa only [bscNodes] using stableNodes_fix tl t h
  | some nd :: tl =>
    obtain ⟨h1, h2⟩ := h
    simp only [bscNodes]
    rw [stableNode_fix nd t h1]
    exact stableNodes_fix tl t h2

theorem stableNode_fix (nd : Node) (t : Store) (h : StableNode nd t) :
    bscNode nd t = t := by
  match nd with
  | .mk nm i o im subs =>
    simp only [StableNode] at h
    simpa only [bscNode] using stableSubs_fix subs t h

theorem stableSubs_fix (l : List (String × Graph)) (t : Store) (h : StableSubs l t) :
    bscSubs l t = t := by
  match l with
  | [] => rfl
  | (a, g) :: tl =>
    obtain ⟨h1, h2⟩ := h
    simp only [bscSubs]
    rw [stableG_fix g t h1]
    exact stableSubs_fix tl t h2
end

theorem lookupS_append_cases : ∀ (s : Store) (m : String) (c : SubGraphContext) (n : String)
    (r : SubGraphContext), lookupS (s ++ [(m, c)]) n = some r → lookupS s n = some r ∨ r = c
| [], m, c, n, r, h => by
  simp only [List.nil_append, lookupS] at h
  by_cases hm : m = n
  · rw [if_pos hm] at h
    exact Or.inr (Option.some.inj h).symm
  · rw [if_neg hm] at h
    exact absurd h (by simp)
| (k, v) :: t, m, c, n, r, h => by
  simp only [List.cons_append, lookupS] at h ⊢
  by_cases hk : k = n
  · rw [if_pos hk] at h ⊢
    exact Or.inl h
  · rw [if_neg hk] at h ⊢
    exact lookupS_append_cases t m c n r h

theorem wf_append_empty (s : Store) (m : String) (h : WFStore s) :
    WFStore (s ++ [(m, emptyCtx)]) := by
  intro n c hc
  rcases lookupS_append_cases s m emptyCtx n c hc with h2 | h2
  · exact h n c h2
  · rw [h2]
    simp [emptyCtx, keysA]

theorem nodup_processRec (g : Graph) (c : SubGraphContext)
    (h : (keysA c.inputs_and_initializers).Nodup) :
    (keysA (processRec g c).inputs_and_initializers).Nodup := by
  simp only [processRec]
  rw [collectInputsNodes_eq_applyA]
  exact nodup_keysA_applyA _ _ h

mutual
theorem bsc_wf (g : Graph) (s : Store) (h : WFStore s) :
    WFStore (BuildSubGraphContext g s) := by
  match g with
  | .mk name nodes ins args os =>
    have h1 : WFStore (bscNodes nodes s) := bscNodes_wf nodes s h
    simp only [BuildSubGraphContext]
    by_cases hc : (lookupS (bscNodes nodes s) name).isSome
    · rw [if_pos hc]
      intro n c hn
      rw [lookupS_updateS] at hn
      by_cases hnn : name = n
      · rw [if_pos hnn] at hn
        have hrec := Option.some.inj hn
        rw [← hrec]
        apply nodup_processRec
        cases he : lookupS (bscNodes nodes s) name with
        | none => simp [he, emptyCtx, keysA]
        | some c0 =>
          simpa using h1 name c0 he
      · rw [if_neg hnn] at hn
        exact h1 n c hn
    · rw [if_neg hc]
      have h2 : WFStore (bscNodes nodes s ++ [(name, emptyCtx)]) :=
        wf_append_empty _ name h1
      intro n c hn
      rw [lookupS_updateS] at hn
      by_cases hnn : name = n
      · rw [if_pos hnn] at hn
        have hrec := Option.some.inj hn
        rw [← hrec]
        apply nodup_processRec
        cases he : lookupS (bscNodes nodes s ++ [(name, emptyCtx)]) name with
        | none => simp [he, emptyCtx, keysA]
        | some c0 =>
          simpa using h2 name c0 he
      · rw [if_neg hnn] at hn
        exact h2 n c hn

theorem bscNodes_wf (l : List (Option Node)) (s : Store) (h : WFStore s) :
    WFStore (bscNodes l s) := by
  match l with
  | [] => exact h
  | none :: t => simpa only [bscNodes] using bscNodes_wf t s h
  | some nd :: t =>
    simp only [bscNodes]
    exact bscNodes_wf t _ (bscNode_wf nd s h)

theorem bscNode_wf (nd : Node) (s : Store) (h : WFStore s) :
    WFStore (bscNode nd s) := by
  match nd with
  | .mk nm i o im subs => simpa only [bscNode] using bscSubs_wf subs s h

theorem bscSubs_wf (l : List (String × Graph)) (s : Store) (h : WFStore s) :
    WFStore (bscSubs l s) := by
  match l with
  | [] => exact h
  | (a, g) :: t =>
    simp only [bscSubs]
    exact bscSubs_wf t _ (bsc_wf g s h)
end

mutual
theorem stableG_transfer (g : Graph) (t1 t2 : Store) (h : StableG g t1)
    (ha : ∀ n ∈ allNamesG g, lookupS t2 n = lookupS t1 n) : StableG g t2 := by
  match g with
  | .mk name nodes ins args os =>
    rw [allNamesG_mk] at ha
    obtain ⟨⟨r, hr, hfix⟩, hns⟩ := h
    refine ⟨⟨r, ?_, hfix⟩, ?_⟩
    · rw [ha name (List.mem_cons_self _ _)]
      exact hr
    · exact stableNodes_transfer nodes t1 t2 hns
        (fun n hn => ha n (List.mem_cons_of_mem _ hn))

theorem stableNodes_transfer (l : List (Option Node)) (t1 t2 : Store) (h : StableNodes l t1)
    (ha : ∀ n ∈ namesOfNodes l, lookupS t2 n = lookupS t1 n) : StableNodes l t2 := by
  match l with
  | [] => trivial
  | none :: tl =>
    simp only [StableNodes] at h ⊢
    rw [namesOfNodes_none] at ha
    exact stableNodes_transfer tl t1 t2 h ha
  | some nd :: tl =>
    obtain ⟨h1, h2⟩ := h
    rw [namesOfNodes_some] at ha
    exact ⟨stableNode_transfer nd t1 t2 h1 (fun n hn => ha n (List.mem_append_left _ hn)),
      stableNodes_transfer tl t1 t2 h2 (fun n hn => ha n (List.mem_append_right _ hn))⟩

theorem stableNode_transfer (nd : Node) (t1 t2 : Store) (h : StableNode nd t1)
    (ha : ∀ n ∈ namesOfNode nd, lookupS t2 n = lookupS t1 n) : StableNode nd t2 := by
  match nd with
  | .mk nm i o im subs =>
    simp only [StableNode] at h ⊢
    rw [namesOfNode_mk] at ha
    exact stableSubs_transfer subs t1 t2 h ha

theorem stableSubs_transfer (l : List (String × Graph)) (t1 t2 : Store) (h : StableSubs l t1)
    (ha : ∀ n ∈ namesOfSubs l, lookupS t2 n = lookupS t1 n) : StableSubs l t2 := by
  match l with
  | [] => trivial
  | (a, g) :: tl =>
    obtain ⟨h1, h2⟩ := h
    rw [namesOfSubs_cons] at ha
    exact ⟨stableG_transfer g t1 t2 h1 (fun n hn => ha n (List.mem_append_left _ hn)),
      stableSubs_transfer tl t1 t2 h2 (fun n hn => ha n (List.mem_append_right _ hn))⟩
end

theorem bsc_lookup_ne (g : Graph) (s : Store) (n : String) (h : g.name ≠ n) :
    lookupS (BuildSubGraphContext g s) n = lookupS (bscNodes g.nodes s) n := by
  match g with
  | .mk name nodes ins args os =>
    simp only [Graph.name] at h
    simp only [BuildSubGraphContext, Graph.nodes]
    rw [lookupS_updateS, if_neg h]
    by_cases hc : (lookupS (bscNodes nodes s) name).isSome
    · rw [if_pos hc]
    · rw [if_neg hc, lookupS_append_ne _ _ _ _ h]

theorem bsc_lookup_self (g : Graph) (s : Store) :
    ∃ c, lookupS (BuildSubGraphContext g s) g.name = some (processRec g c) ∧
      (lookupS (bscNodes g.nodes s) g.name = some c ∨ c = emptyCtx) := by
  match g with
  | .mk name nodes ins args os =>
    simp only [BuildSubGraphContext, Graph.name, Graph.nodes]
    by_cases hc : (lookupS (bscNodes nodes s) name).isSome
    · rw [if_pos hc]
      obtain ⟨c0, hc0⟩ := Option.isSome_iff_exists.mp hc
      refine ⟨c0, ?_, Or.inl hc0⟩
      rw [hc0]
      simp [lookupS_updateS]
    · rw [if_neg hc]
      have hnone : lookupS (bscNodes nodes s) name = none :=
        Option.not_isSome_iff_eq_none.mp hc
      refine ⟨emptyCtx, ?_, Or.inr rfl⟩
      rw [lookupS_append_self _ _ _ hnone]
      simp [lookupS_updateS]

mutual
theorem bsc_stable (g : Graph) (s : Store) (hnd : (allNamesG g).Nodup) (hwf : WFStore s) :
    StableG g (BuildSubGraphContext g s) := by
  match g with
  | .mk name nodes ins args os =>
    rw [allNamesG_mk] at hnd
    have hname : name ∉ namesOfNodes nodes := (List.nodup_cons.mp hnd).1
    have hnd2 : (namesOfNodes nodes).Nodup := (List.nodup_cons.mp hnd).2
    have hwf1 : WFStore (bscNodes nodes s) := bscNodes_wf nodes s hwf
    obtain ⟨c, hlook, hcase⟩ := bsc_lookup_self (.mk name nodes ins args os) s
    have hckeys : (keysA c.inputs_and_initializers).Nodup := by
      rcases hcase with hcs | hce
      · exact hwf1 name c hcs
      · rw [hce]
        simp [emptyCtx, keysA]
    simp only [StableG]
    refine ⟨⟨processRec (.mk name nodes ins args os) c, hlook,
      processRec_processRec _ c hckeys⟩, ?_⟩
    refine stableNodes_transfer nodes (bscNodes nodes s) _
      (bscNodes_stable nodes s hnd2 hwf) ?_
    intro n hn
    have hne : name ≠ n := fun he => hname (he ▸ hn)
    exact bsc_lookup_ne (.mk name nodes ins args os) s n hne

theorem bscNodes_stable (l : List (Option Node)) (s : Store) (hnd : (namesOfNodes l).Nodup)
    (hwf : WFStore s) : StableNodes l (bscNodes l s) := by
  match l with
  | [] => trivial
  | none :: t =>
    rw [namesOfNodes_none] at hnd
    simp only [bscNodes, StableNodes]
    exact bscNodes_stable t s hnd hwf
  | some nd :: t =>
    rw [namesOfNodes_some] at hnd
    obtain ⟨hnd1, hnd2, hdisj⟩ := List.nodup_append.mp hnd
    simp only [bscNodes, StableNodes]
    constructor
    · refine stableNode_transfer nd (bscNode nd s) _ (bscNode_stable nd s hnd1 hwf) ?_
      intro n hn
      exact bscNodes_frame t _ n (fun hc => hdisj hn hc)
    · exact bscNodes_stable t (bscNode nd s) hnd2 (bscNode_wf nd s hwf)

theorem bscNode_stable (nd : Node) (s : Store) (hnd : (namesOfNode nd).Nodup)
    (hwf : WFStore s) : StableNode nd (bscNode nd s) := by
  match nd with
  | .mk nm i o im subs =>
    rw [namesOfNode_mk] at hnd
    simp only [bscNode, StableNode]
    exact bscSubs_stable subs s hnd hwf

theorem bscSubs_stable (l : List (String × Graph)) (s : Store) (hnd : (namesOfSubs l).Nodup)
    (hwf : WFStore s) : StableSubs l (bscSubs l s) := by
  match l with
  | [] => trivial
  | (a, g) :: t =>
    rw [namesOfSubs_cons] at hnd
    obtain ⟨hnd1, hnd2, hdisj⟩ := List.nodup_append.mp hnd
    simp only [bscSubs, StableSubs]
    constructor
    · refine stableG_transfer g (BuildSubGraphContext g s) _ (bsc_stable g s hnd1 hwf) ?_
      intro n hn
      exact bscSubs_frame t _ n (fun hc => hdisj hn hc)
    · exact bscSubs_stable t (BuildSubGraphContext g s) hnd2 (bsc_wf g s hwf)
end

/-- Claim C4: running the Context Builder twice in succession on the same
graph (unique names) and the same store (any C++-representable one) yields
Scope Records identical to those after running it once — the second run
changes nothing at all. -/
theorem buildSubGraphContext_idempotent (g : Graph) (s : Store)
    (hnd : (allNamesG g).Nodup) (hwf : WFStore s) :
    BuildSubGraphContext g (BuildSubGraphContext g s) = BuildSubGraphContext g s :=
  stableG_fix g _ (bsc_stable g s hnd hwf)

/-- Witness for C4 on the concrete extraction's built graph. -/
theorem buildSubGraphContext_idempotent_witness :
    BuildSubGraphContext builtTop (BuildSubGraphContext builtTop []) =
      BuildSubGraphContext builtTop [] :=
  buildSubGraphContext_idempotent builtTop [] (by decide)
    (fun n c h => by simp [lookupS] at h)

/-! ## Binder: what a bind run does to the store

A bind run can only grow `manually_added_graph_inputs` of the record stored
under the top-level graph's name; every other binding, and the other two
fields of that record, are untouched. -/

theorem addOuterScopeNodeArg_name (g : Graph) (x : String) :
    (g.addOuterScopeNodeArg x).name = g.name := by
  match g with
  | .mk n ns ins args os => rfl

theorem addOuterScopeNodeArg_nodeArgs (g : Graph) (x : String) :
    (g.addOuterScopeNodeArg x).nodeArgs = g.nodeArgs := by
  match g with
  | .mk n ns ins args os => rfl

theorem addOuterScopeNodeArg_nodes (g : Graph) (x : String) :
    (g.addOuterScopeNodeArg x).nodes = g.nodes := by
  match g with
  | .mk n ns ins args os => rfl

theorem addOuterScopeNodeArg_inputs (g : Graph) (x : String) :
    (g.addOuterScopeNodeArg x).inputsIncludingInitializers = g.inputsIncludingInitializers := by
  match g with
  | .mk n ns ins args os => rfl

theorem findArg_name : ∀ (args : List NodeArg) (n : String) (a : NodeArg),
    findArg args n = some a → a.name = n
| [], n, a, h => by simp [findArg] at h
| b :: t, n, a, h => by
  simp only [findArg] at h
  by_cases hb : b.name = n
  · rw [if_pos hb] at h
    rw [← Option.some.inj h]
    exact hb
  · rw [if_neg hb] at h
    exact findArg_name t n a h

theorem getOrCreateNodeArg_name (args : List NodeArg) (n : String) (t : Ty) :
    (getOrCreateNodeArg args n t).1.name = n := by
  unfold getOrCreateNodeArg
  cases he : findArg args n with
  | none => rfl
  | some a => exact findArg_name args n a he

theorem argInsert_superset (l : List NodeArg) (a : NodeArg) : ∀ b ∈ l, b ∈ argInsert l a := by
  intro b hb
  unfold argInsert
  by_cases h : a.name ∈ l.map NodeArg.name
  · rw [if_pos h]; exact hb
  · rw [if_neg h]; exact List.mem_append_left _ hb

theorem argInsert_mem_name (l : List NodeArg) (a : NodeArg) :
    ∃ b ∈ argInsert l a, b.name = a.name := by
  unfold argInsert
  by_cases h : a.name ∈ l.map NodeArg.name
  · rw [if_pos h]
    obtain ⟨b, hb, hbn⟩ := List.mem_map.mp h
    exact ⟨b, hb, hbn⟩
  · rw [if_neg h]
    exact ⟨a, List.mem_append_right _ (List.mem_singleton.mpr rfl), rfl⟩

theorem synthOnly_refl (rn : String) (s : Store) : SynthOnly rn s s := by
  refine ⟨fun n _ => rfl, ?_⟩
  cases hc : lookupS s rn with
  | none => exact Or.inl ⟨rfl, rfl⟩
  | some c => exact Or.inr ⟨c, c, rfl, rfl, rfl, rfl, fun a ha => ha⟩

theorem synthOnly_trans {rn : String} {s1 s2 s3 : Store}
    (h12 : SynthOnly rn s1 s2) (h23 : SynthOnly rn s2 s3) : SynthOnly rn s1 s3 := by
  obtain ⟨he12, hr12⟩ := h12
  obtain ⟨he23, hr23⟩ := h23
  refine ⟨fun n hn => (he23 n hn).trans (he12 n hn), ?_⟩
  rcases hr12 with ⟨h2none, h1none⟩ | ⟨c1, c2, hc1, hc2, ho, hi, hm⟩
  · rcases hr23 with ⟨h3none, _⟩ | ⟨d2, d3, hd2, _, _, _, _⟩
    · exact Or.inl ⟨h3none, h1none⟩
    · rw [h2none] at hd2
      exact absurd hd2 (by simp)
  · rcases hr23 with ⟨h3none, h2none⟩ | ⟨d2, d3, hd2, hd3, ho2, hi2, hm2⟩
    · rw [hc2] at h2none
      exact absurd h2none (by simp)
    · rw [hc2] at hd2
      have hcd : c2 = d2 := Option.some.inj hd2
      subst hcd
      exact Or.inr ⟨c1, d3, hc1, hd3, ho2.trans ho, hi2.trans hi,
        fun a ha => hm2 a (hm a ha)⟩

theorem insertSynth_synthOnly (s : Store) (rn : String) (a : NodeArg) :
    SynthOnly rn s (insertSynth s rn a) := by
  unfold insertSynth
  cases hc : lookupS s rn with
  | none => exact synthOnly_refl rn s
  | some c =>
    refine ⟨fun n hn => ?_, ?_⟩
    · rw [lookupS_updateS, if_neg (fun he => hn he.symm)]
    · refine Or.inr ⟨c, ⟨c.output_args, c.inputs_and_initializers,
        argInsert c.manually_added_graph_inputs a⟩, hc, ?_, rfl, rfl,
        argInsert_superset _ a⟩
      rw [lookupS_updateS, if_pos rfl]

theorem stepImplicit_synthOnly (rn : String) (ri : List NodeArg) (anc : List String)
    (p : Graph × BindSt) (v : NodeArg) :
    SynthOnly rn p.2.store (stepImplicit rn ri anc p v).2.store := by
  unfold stepImplicit
  cases p.1.getNodeArg v.name with
  | none => exact synthOnly_refl rn p.2.store
  | some a =>
    simp only
    by_cases h1 : IsOuterScopeValue p.2.store (viewOf (p.1.addOuterScopeNodeArg v.name).name anc) v.name
    · rw [if_pos h1]
      exact synthOnly_refl rn p.2.store
    · rw [if_neg h1]
      by_cases h2 : v.name ∈ ri.map NodeArg.name
      · rw [if_pos h2]
        exact synthOnly_refl rn p.2.store
      · rw [if_neg h2]
        exact insertSynth_synthOnly p.2.store rn _

theorem processImplicits_synthOnly (rn : String) (ri : List NodeArg) (anc : List String) :
    ∀ (inputs : List NodeArg) (p : Graph × BindSt),
      SynthOnly rn p.2.store (processImplicits rn ri anc p inputs).2.store
| [], p => synthOnly_refl rn p.2.store
| v :: t, p => by
  show SynthOnly rn p.2.store (processImplicits rn ri anc (stepImplicit rn ri anc p v) t).2.store
  exact synthOnly_trans (stepImplicit_synthOnly rn ri anc p v)
    (processImplicits_synthOnly rn ri anc t _)

mutual
theorem bindGraph_synthOnly (rn : String) (ri : List NodeArg) (gB : Graph) (anc : List String)
    (gO : Graph) (opn : Option Node) (st : BindSt) :
    SynthOnly rn st.store (bindGraph rn ri gB anc gO opn st).2.store := by
  match gB with
  | .mk name nodes ins args os =>
    simp only [bindGraph]
    cases opn with
    | none => exact bindNodes_synthOnly rn ri nodes (name :: anc) gO st
    | some pn =>
      exact synthOnly_trans (bindNodes_synthOnly rn ri nodes (name :: anc) gO st)
        (processImplicits_synthOnly rn ri anc pn.implicitInputDefs _)

theorem bindNodes_synthOnly (rn : String) (ri : List NodeArg) (l : List (Option Node))
    (anc : List String) (gO : Graph) (st : BindSt) :
    SynthOnly rn st.store (bindNodes rn ri l anc gO st).2.store := by
  match l with
  | [] => exact synthOnly_refl rn st.store
  | none :: t =>
    simp only [bindNodes]
    exact bindNodes_synthOnly rn ri t anc gO st
  | some nd :: t =>
    simp only [bindNodes]
    exact synthOnly_trans (bindNode_synthOnly rn ri nd anc gO st)
      (bindNodes_synthOnly rn ri t anc gO _)

theorem bindNode_synthOnly (rn : String) (ri : List NodeArg) (nd : Node) (anc : List String)
    (gO : Graph) (st : BindSt) :
    SynthOnly rn st.store (bindNode rn ri nd anc gO st).2.store := by
  match nd with
  | .mk nm i o im subs =>
    simp only [bindNode]
    exact bindSubs_synthOnly rn ri subs anc _ _ st

theorem bindSubs_synthOnly (rn : String) (ri : List NodeArg) (l : List (String × Graph))
    (anc : List String) (origSubs : List (String × Graph)) (om : Option Node) (st : BindSt) :
    SynthOnly rn st.store (bindSubs rn ri l anc origSubs om st).2.store := by
  match l with
  | [] => exact synthOnly_refl rn st.store
  | (attr, sgB) :: t =>
    simp only [bindSubs]
    cases lookupAttr origSubs attr with
    | none =>
      simp only
      exact bindSubs_synthOnly rn ri t anc origSubs om st
    | some sgO =>
      simp only
      exact synthOnly_trans (bindGraph_synthOnly rn ri sgB anc sgO om st)
        (bindSubs_synthOnly rn ri t anc origSubs om _)
end

theorem isLocalValue_synthOnly (rn : String) {s s2 : Store} (h : SynthOnly rn s s2)
    (gv : GraphView) (n : String) : IsLocalValue s2 gv n = IsLocalValue s gv n := by
  unfold IsLocalValue
  by_cases hg : gv.name = rn
  · rw [hg]
    rcases h.2 with ⟨h2, h1⟩ | ⟨c, c2, hc, hc2, ho, hi, _⟩
    · rw [h2, h1]
    · rw [hc, hc2]
      show (decide (n ∈ c2.output_args) || decide (n ∈ keysA c2.inputs_and_initializers)) =
        (decide (n ∈ c.output_args) || decide (n ∈ keysA c.inputs_and_initializers))
      rw [ho, hi]
  · rw [h.1 gv.name hg]

theorem iioo_synthOnly (rn : String) {s s2 : Store} (h : SynthOnly rn s s2) :
    ∀ (gv : GraphView) (n : String) (ca : Bool),
      IsInputInitializerOrOutput s2 gv n ca = IsInputInitializerOrOutput s gv n ca
| .mk nm none, n, ca => by
  simp only [IsInputInitializerOrOutput]
  rw [isLocalValue_synthOnly rn h]
| .mk nm (some p), n, ca => by
  simp only [IsInputInitializerOrOutput]
  rw [isLocalValue_synthOnly rn h, iioo_synthOnly rn h p n ca]

theorem isOuterScopeValue_synthOnly (rn : String) {s s2 : Store} (h : SynthOnly rn s s2)
    (gv : GraphView) (n : String) :
    IsOuterScopeValue s2 gv n = IsOuterScopeValue s gv n := by
  obtain ⟨nm, p⟩ := gv
  cases p with
  | none => rfl
  | some pv =>
    simp only [IsOuterScopeValue, GraphView.parent]
    exact iioo_synthOnly rn h pv n true

theorem synthOnly_root_isSome {rn : String} {s s2 : Store} (h : SynthOnly rn s s2)
    (hr : (lookupS s rn).isSome) : (lookupS s2 rn).isSome := by
  rcases h.2 with ⟨_, h1⟩ | ⟨c, c2, _, hc2, _, _, _⟩
  · rw [h1] at hr
    exact absurd hr (by simp)
  · rw [hc2]
    rfl

theorem synthOnly_synthMem {rn : String} {s s2 : Store} {v : String} (h : SynthOnly rn s s2)
    (hm : ∃ c, lookupS s rn = some c ∧ ∃ a ∈ c.manually_added_graph_inputs, a.name = v) :
    ∃ c, lookupS s2 rn = some c ∧ ∃ a ∈ c.manually_added_graph_inputs, a.name = v := by
  obtain ⟨c, hc, a, ha, hav⟩ := hm
  rcases h.2 with ⟨_, h1⟩ | ⟨c1, c2, hc1, hc2, _, _, hmono⟩
  · rw [h1] at hc
    exact absurd hc (by simp)
  · rw [hc1] at hc
    have : c1 = c := Option.some.inj hc
    subst this
    exact ⟨c2, hc2, a, hmono a ha, hav⟩

/-! ## Binder: shape preservation -/

theorem allNamesG_eq (g : Graph) : allNamesG g = g.name :: namesOfNodes g.nodes := by
  match g with
  | .mk n ns ins args os => rfl

theorem nestedNamesG_eq (g : Graph) : nestedNamesG g = namesOfNodes g.nodes := rfl

theorem stepImplicit_fst (rn : String) (ri : List NodeArg) (anc : List String)
    (p : Graph × BindSt) (v : NodeArg) :
    (stepImplicit rn ri anc p v).1.name = p.1.name ∧
    (stepImplicit rn ri anc p v).1.nodes = p.1.nodes ∧
    (stepImplicit rn ri anc p v).1.inputsIncludingInitializers = p.1.inputsIncludingInitializers ∧
    (stepImplicit rn ri anc p v).1.nodeArgs = p.1.nodeArgs := by
  unfold stepImplicit
  cases p.1.getNodeArg v.name with
  | none => exact ⟨rfl, rfl, rfl, rfl⟩
  | some a =>
    simp only
    by_cases h1 : IsOuterScopeValue p.2.store (viewOf (p.1.addOuterScopeNodeArg v.name).name anc) v.name
    · rw [if_pos h1]
      exact ⟨addOuterScopeNodeArg_name _ _, addOuterScopeNodeArg_nodes _ _,
        addOuterScopeNodeArg_inputs _ _, addOuterScopeNodeArg_nodeArgs _ _⟩
    · rw [if_neg h1]
      by_cases h2 : v.name ∈ ri.map NodeArg.name
      · rw [if_pos h2]
        exact ⟨addOuterScopeNodeArg_name _ _, addOuterScopeNodeArg_nodes _ _,
          addOuterScopeNodeArg_inputs _ _, addOuterScopeNodeArg_nodeArgs _ _⟩
      · rw [if_neg h2]
        exact ⟨addOuterScopeNodeArg_name _ _, addOuterScopeNodeArg_nodes _ _,
          addOuterScopeNodeArg_inputs _ _, addOuterScopeNodeArg_nodeArgs _ _⟩

theorem processImplicits_fst (rn : String) (ri : List NodeArg) (anc : List String) :
    ∀ (inputs : List NodeArg) (p : Graph × BindSt),
    (processImplicits rn ri anc p inputs).1.name = p.1.name ∧
    (processImplicits rn ri anc p inputs).1.nodes = p.1.nodes ∧
    (processImplicits rn ri anc p inputs).1.inputsIncludingInitializers = p.1.inputsIncludingInitializers ∧
    (processImplicits rn ri anc p inputs).1.nodeArgs = p.1.nodeArgs
| [], p => ⟨rfl, rfl, rfl, rfl⟩
| v :: t, p => by
  show (processImplicits rn ri anc (stepImplicit rn ri anc p v) t).1.name = p.1.name ∧ _
  obtain ⟨ha, hb, hc, hd⟩ := processImplicits_fst rn ri anc t (stepImplicit rn ri anc p v)
  obtain ⟨ha2, hb2, hc2, hd2⟩ := stepImplicit_fst rn ri anc p v
  exact ⟨ha.trans ha2, hb.trans hb2, hc.trans hc2, hd.trans hd2⟩

mutual
theorem bindGraph_shape (rn : String) (ri : List NodeArg) (gB : Graph) (anc : List String)
    (gO : Graph) (opn : Option Node) (st : BindSt) :
    (bindGraph rn ri gB anc gO opn st).1.name = gB.name ∧
    allNamesG (bindGraph rn ri gB anc gO opn st).1 = allNamesG gB ∧
    (bindGraph rn ri gB anc gO opn st).1.inputsIncludingInitializers = gB.inputsIncludingInitializers := by
  match gB with
  | .mk name nodes ins args os =>
    have hnodes := bindNodes_shape rn ri nodes (name :: anc) gO st
    simp only [bindGraph]
    cases opn with
    | none =>
      refine ⟨rfl, ?_, rfl⟩
      rw [allNamesG_eq, allNamesG_eq]
      simp only [Graph.name, Graph.nodes]
      rw [hnodes]
    | some pn =>
      obtain ⟨ha, hb, hc, _⟩ := processImplicits_fst rn ri anc pn.implicitInputDefs
        (⟨name, (bindNodes rn ri nodes (name :: anc) gO st).1, ins, args, os⟩,
          (bindNodes rn ri nodes (name :: anc) gO st).2)
      refine ⟨ha.trans rfl, ?_, hc.trans rfl⟩
      rw [allNamesG_eq, allNamesG_eq, ha, hb]
      simp only [Graph.name, Graph.nodes]
      rw [hnodes]

theorem bindNodes_shape (rn : String) (ri : List NodeArg) (l : List (Option Node))
    (anc : List String) (gO : Graph) (st : BindSt) :
    namesOfNodes (bindNodes rn ri l anc gO st).1 = namesOfNodes l := by
  match l with
  | [] => rfl
  | none :: t =>
    simp only [bindNodes]
    rw [namesOfNodes_none, namesOfNodes_none]
    exact bindNodes_shape rn ri t anc gO st
  | some nd :: t =>
    simp only [bindNodes]
    rw [namesOfNodes_some, namesOfNodes_some]
    rw [bindNode_shape rn ri nd anc gO st, bindNodes_shape rn ri t anc gO _]

theorem bindNode_shape (rn : String) (ri : List NodeArg) (nd : Node) (anc : List String)
    (gO : Graph) (st : BindSt) :
    namesOfNode (bindNode rn ri nd anc gO st).1 = namesOfNode nd := by
  match nd with
  | .mk nm i o im subs =>
    simp only [bindNode]
    rw [namesOfNode_mk, namesOfNode_mk]
    exact bindSubs_shape rn ri subs anc _ _ st

theorem bindSubs_shape (rn : String) (ri : List NodeArg) (l : List (String × Graph))
    (anc : List String) (origSubs : List (String × Graph)) (om : Option Node) (st : BindSt) :
    namesOfSubs (bindSubs rn ri l anc origSubs om st).1 = namesOfSubs l := by
  match l with
  | [] => rfl
  | (attr, sgB) :: t =>
    simp only [bindSubs]
    cases lookupAttr origSubs attr with
    | none =>
      simp only
      rw [namesOfSubs_cons, namesOfSubs_cons]
      rw [bindSubs_shape rn ri t anc origSubs om st]
    | some sgO =>
      simp only
      rw [namesOfSubs_cons, namesOfSubs_cons]
      rw [(bindGraph_shape rn ri sgB anc sgO om st).2.1,
        bindSubs_shape rn ri t anc origSubs om _]
end

theorem withNodeArgs_fields (g : Graph) (args : List NodeArg) :
    (g.withNodeArgs args).name = g.name ∧ (g.withNodeArgs args).nodes = g.nodes ∧
      (g.withNodeArgs args).inputsIncludingInitializers = g.inputsIncludingInitializers := by
  match g with
  | .mk n ns ins a os => exact ⟨rfl, rfl, rfl⟩

theorem setOuter_shape (gB gO : Graph) (s : Store) :
    (SetGraphOuterScopeValuesAndInputs gB gO s).1.name = gB.name ∧
    allNamesG (SetGraphOuterScopeValuesAndInputs gB gO s).1 = allNamesG gB ∧
    (SetGraphOuterScopeValuesAndInputs gB gO s).1.inputsIncludingInitializers =
      gB.inputsIncludingInitializers := by
  unfold SetGraphOuterScopeValuesAndInputs
  obtain ⟨ha, hb, hc⟩ := bindGraph_shape gB.name gB.inputsIncludingInitializers gB [] gO none
    ⟨gB.nodeArgs, s⟩
  obtain ⟨hw1, hw2, hw3⟩ := withNodeArgs_fields
    (bindGraph gB.name gB.inputsIncludingInitializers gB [] gO none ⟨gB.nodeArgs, s⟩).1
    (bindGraph gB.name gB.inputsIncludingInitializers gB [] gO none ⟨gB.nodeArgs, s⟩).2.rootNodeArgs
  refine ⟨hw1.trans ha, ?_, hw3.trans hc⟩
  rw [allNamesG_eq, hw1, hw2, ha]
  rw [allNamesG_eq] at hb
  rw [ha] at hb
  rw [allNamesG_eq] at hb ⊢
  exact hb

theorem setOuter_synthOnly (gB gO : Graph) (s : Store) :
    SynthOnly gB.name s (SetGraphOuterScopeValuesAndInputs gB gO s).2 :=
  bindGraph_synthOnly gB.name gB.inputsIncludingInitializers gB [] gO none ⟨gB.nodeArgs, s⟩

theorem setOuter_nestedSynthEmpty (gB gO : Graph) (s : Store)
    (hroot : gB.name ∉ nestedNamesG gB) (hsyn : NestedSynthEmpty gB s) :
    NestedSynthEmpty (SetGraphOuterScopeValuesAndInputs gB gO s).1
      (SetGraphOuterScopeValuesAndInputs gB gO s).2 := by
  intro n hn c hc
  have hshape := setOuter_shape gB gO s
  have hnest : nestedNamesG (SetGraphOuterScopeValuesAndInputs gB gO s).1 = nestedNamesG gB := by
    have h1 := hshape.2.1
    rw [allNamesG_eq, allNamesG_eq, hshape.1] at h1
    have h2 := congrArg List.tail h1
    simp only [List.tail_cons] at h2
    rw [nestedNamesG_eq, nestedNamesG_eq]
    exact h2
  rw [hnest] at hn
  have hne : n ≠ gB.name := fun he => hroot (he ▸ hn)
  rw [(setOuter_synthOnly gB gO s).1 n hne] at hc
  exact hsyn n hn c hc

/-- Claim C7: after any sequence of bind runs on a built tree with unique
graph names, starting from a store in which no nested graph's record has
synthesized entries (as the Context Builder leaves it), every Scope Record
belonging to a graph that has a parent still has an empty synthesized set —
only the top-most graph's record ever gains synthesized entries. -/
theorem bind_nested_synth_empty (k : Nat) (gB gO : Graph) (s : Store)
    (hnd : (allNamesG gB).Nodup) (hsyn : NestedSynthEmpty gB s) :
    NestedSynthEmpty (bindIter k gB gO s).1 (bindIter k gB gO s).2 := by
  induction k generalizing gB s with
  | zero => exact hsyn
  | succ k ih =>
    simp only [bindIter]
    have hroot : gB.name ∉ nestedNamesG gB := by
      rw [allNamesG_eq] at hnd
      rw [nestedNamesG_eq]
      exact (List.nodup_cons.mp hnd).1
    have hstep := setOuter_nestedSynthEmpty gB gO s hroot hsyn
    have hnd2 : (allNamesG (SetGraphOuterScopeValuesAndInputs gB gO s).1).Nodup := by
      rw [(setOuter_shape gB gO s).2.1]
      exact hnd
    exact ih _ _ hnd2 hstep

/-- Witness for C7: two bind runs over the concrete extraction leave the
nested record's synthesized set empty. -/
theorem bind_nested_synth_empty_witness :
    NestedSynthEmpty (bindIter 2 builtTop origTop exStore0).1
      (bindIter 2 builtTop origTop exStore0).2 :=
  bind_nested_synth_empty 2 builtTop origTop exStore0 (by decide)
    (fun n hn c hc => by
      have hb : n = "body" := by
        rw [show nestedNamesG builtTop = ["body"] from rfl] at hn
        simpa using hn
      subst hb
      rw [show lookupS exStore0 "body" = some emptyCtx from rfl] at hc
      rw [← Option.some.inj hc]
      rfl)

theorem insertSynth_count (s : Store) (rn : String) (a : NodeArg) (v : String)
    (hne : a.name ≠ v) : synthCount (insertSynth s rn a) rn v = synthCount s rn v := by
  unfold synthCount insertSynth
  cases hc : lookupS s rn with
  | none => rw [hc]
  | some c =>
    rw [lookupS_updateS, if_pos rfl]
    simp only
    unfold argInsert
    by_cases hm : a.name ∈ c.manually_added_graph_inputs.map NodeArg.name
    · rw [if_pos hm]
    · rw [if_neg hm, List.filter_append]
      simp [hne]

theorem stepImplicit_count (rn : String) (ri : List NodeArg) (anc : List String)
    (p : Graph × BindSt) (w : NodeArg) (v : String) (hv : v ∈ ri.map NodeArg.name) :
    synthCount (stepImplicit rn ri anc p w).2.store rn v = synthCount p.2.store rn v := by
  unfold stepImplicit
  cases p.1.getNodeArg w.name with
  | none => rfl
  | some a =>
    simp only
    by_cases h1 : IsOuterScopeValue p.2.store
        (viewOf (p.1.addOuterScopeNodeArg w.name).name anc) w.name
    · rw [if_pos h1]
    · rw [if_neg h1]
      by_cases h2 : w.name ∈ ri.map NodeArg.name
      · rw [if_pos h2]
      · rw [if_neg h2]
        simp only
        apply insertSynth_count
        rw [getOrCreateNodeArg_name]
        exact fun he => h2 (he ▸ hv)

theorem processImplicits_count (rn : String) (ri : List NodeArg) (anc : List String)
    (v : String) (hv : v ∈ ri.map NodeArg.name) :
    ∀ (inputs : List NodeArg) (p : Graph × BindSt),
      synthCount (processImplicits rn ri anc p inputs).2.store rn v = synthCount p.2.store rn v
| [], p => rfl
| w :: t, p => by
  show synthCount (processImplicits rn ri anc (stepImplicit rn ri anc p w) t).2.store rn v = _
  rw [processImplicits_count rn ri anc v hv t _, stepImplicit_count rn ri anc p w v hv]

mutual
theorem bindGraph_count (rn : String) (ri : List NodeArg) (gB : Graph) (anc : List String)
    (gO : Graph) (opn : Option Node) (st : BindSt) (v : String) (hv : v ∈ ri.map NodeArg.name) :
    synthCount (bindGraph rn ri gB anc gO opn st).2.store rn v = synthCount st.store rn v := by
  match gB with
  | .mk name nodes ins args os =>
    simp only [bindGraph]
    cases opn with
    | none => exact bindNodes_count rn ri nodes (name :: anc) gO st v hv
    | some pn =>
      rw [processImplicits_count rn ri anc v hv pn.implicitInputDefs _]
      exact bindNodes_count rn ri nodes (name :: anc) gO st v hv

theorem bindNodes_count (rn : String) (ri : List NodeArg) (l : List (Option Node))
    (anc : List String) (gO : Graph) (st : BindSt) (v : String) (hv : v ∈ ri.map NodeArg.name) :
    synthCount (bindNodes rn ri l anc gO st).2.store rn v = synthCount st.store rn v := by
  match l with
  | [] => rfl
  | none :: t =>
    simp only [bindNodes]
    exact bindNodes_count rn ri t anc gO st v hv
  | some nd :: t =>
    simp only [bindNodes]
    rw [bindNodes_count rn ri t anc gO _ v hv, bindNode_count rn ri nd anc gO st v hv]

theorem bindNode_count (rn : String) (ri : List NodeArg) (nd : Node) (anc : List String)
    (gO : Graph) (st : BindSt) (v : String) (hv : v ∈ ri.map NodeArg.name) :
    synthCount (bindNode rn ri nd anc gO st).2.store rn v = synthCount st.store rn v := by
  match nd with
  | .mk nm i o im subs =>
    simp only [bindNode]
    exact bindSubs_count rn ri subs anc _ _ st v hv

theorem bindSubs_count (rn : String) (ri : List NodeArg) (l : List (String × Graph))
    (anc : List String) (origSubs : List (String × Graph)) (om : Option Node) (st : BindSt)
    (v : String) (hv : v ∈ ri.map NodeArg.name) :
    synthCount (bindSubs rn ri l anc origSubs om st).2.store rn v = synthCount st.store rn v := by
  match l with
  | [] => rfl
  | (attr, sgB) :: t =>
    simp only [bindSubs]
    cases lookupAttr origSubs attr with
    | none =>
      simp only
      exact bindSubs_count rn ri t anc origSubs om st v hv
    | some sgO =>
      simp only
      rw [bindSubs_count rn ri t anc origSubs om _ v hv,
        bindGraph_count rn ri sgB anc sgO om st v hv]
end

theorem setOuter_count (gB gO : Graph) (s : Store) (v : String)
    (hv : v ∈ gB.inputsIncludingInitializers.map NodeArg.name) :
    synthCount (SetGraphOuterScopeValuesAndInputs gB gO s).2 gB.name v =
      synthCount s gB.name v :=
  bindGraph_count gB.name gB.inputsIncludingInitializers gB [] gO none ⟨gB.nodeArgs, s⟩ v hv

/-- Claim C8: when an implicit-input value `v` is already present among the
top-level graph's declared inputs including initializers, running `bind` a
second time on the resulting state does not add `v` to the synthesized set
(in fact neither run ever adds it: the per-value count under the top-level
record is unchanged by the second run). -/
theorem setOuter_no_duplicate_synthesis (gB gO : Graph) (s : Store) (v : String)
    (hv : v ∈ gB.inputsIncludingInitializers.map NodeArg.name) :
    synthCount (SetGraphOuterScopeValuesAndInputs
        (SetGraphOuterScopeValuesAndInputs gB gO s).1 gO
        (SetGraphOuterScopeValuesAndInputs gB gO s).2).2 gB.name v =
      synthCount (SetGraphOuterScopeValuesAndInputs gB gO s).2 gB.name v := by
  have hshape := setOuter_shape gB gO s
  have hv2 : v ∈ (SetGraphOuterScopeValuesAndInputs gB gO s).1.inputsIncludingInitializers.map
      NodeArg.name := by
    rw [hshape.2.2]
    exact hv
  have h := setOuter_count (SetGraphOuterScopeValuesAndInputs gB gO s).1 gO
    (SetGraphOuterScopeValuesAndInputs gB gO s).2 v hv2
  rwa [hshape.1] at h

/-- Witness for C8: with `q` already a declared top-level input, two bind
runs leave its synthesized count unchanged. -/
theorem setOuter_no_duplicate_synthesis_witness :
    synthCount (SetGraphOuterScopeValuesAndInputs
        (SetGraphOuterScopeValuesAndInputs builtTop2 origTop exStore0).1 origTop
        (SetGraphOuterScopeValuesAndInputs builtTop2 origTop exStore0).2).2 "top" "q" =
      synthCount (SetGraphOuterScopeValuesAndInputs builtTop2 origTop exStore0).2 "top" "q" :=
  setOuter_no_duplicate_synthesis builtTop2 origTop exStore0 "q" (by decide)

theorem closureOK_synthOnly (rn : String) (ri : List NodeArg) {s s2 : Store}
    (h : SynthOnly rn s s2) (gname : String) (chain : List String) (v : String)
    (hc : ClosureOK rn ri s gname chain v) : ClosureOK rn ri s2 gname chain v := by
  rcases hc with h1 | h2 | h3 | h4
  · exact Or.inl (by rw [isLocalValue_synthOnly rn h]; exact h1)
  · exact Or.inr (Or.inl (by rw [isOuterScopeValue_synthOnly rn h]; exact h2))
  · exact Or.inr (Or.inr (Or.inl h3))
  · exact Or.inr (Or.inr (Or.inr (synthOnly_synthMem h h4)))

theorem viewOf_name (gname : String) (chain : List String) :
    (viewOf gname chain).name = gname := by
  cases chain with
  | nil => rfl
  | cons p t => rfl

/-- One loop iteration establishes the closure disjunction for its value
when the built subgraph references it, provided the top-level record
exists. -/
theorem stepImplicit_closure (rn : String) (ri : List NodeArg) (anc : List String)
    (p : Graph × BindSt) (v : NodeArg) (hroot : (lookupS p.2.store rn).isSome)
    (hlk : (p.1.getNodeArg v.name).isSome) :
    ClosureOK rn ri (stepImplicit rn ri anc p v).2.store p.1.name anc v.name := by
  unfold stepImplicit
  cases hg : p.1.getNodeArg v.name with
  | none => rw [hg] at hlk; exact absurd hlk (by simp)
  | some a =>
    simp only
    rw [addOuterScopeNodeArg_name]
    by_cases h1 : IsOuterScopeValue p.2.store (viewOf p.1.name anc) v.name
    · rw [if_pos h1]
      exact Or.inr (Or.inl h1)
    · rw [if_neg h1]
      by_cases h2 : v.name ∈ ri.map NodeArg.name
      · rw [if_pos h2]
        exact Or.inr (Or.inr (Or.inl h2))
      · rw [if_neg h2]
        simp only
        refine Or.inr (Or.inr (Or.inr ?_))
        obtain ⟨c, hcl⟩ := Option.isSome_iff_exists.mp hroot
        unfold insertSynth
        rw [hcl, lookupS_updateS, if_pos rfl]
        refine ⟨_, rfl, ?_⟩
        simp only
        have hname := getOrCreateNodeArg_name p.2.rootNodeArgs v.name v.ty
        obtain ⟨b, hb, hbn⟩ := argInsert_mem_name c.manually_added_graph_inputs
          (getOrCreateNodeArg p.2.rootNodeArgs v.name v.ty).1
        exact ⟨b, hb, hbn.trans hname⟩

theorem stepImplicit_root_isSome (rn : String) (ri : List NodeArg) (anc : List String)
    (p : Graph × BindSt) (v : NodeArg) (hroot : (lookupS p.2.store rn).isSome) :
    (lookupS (stepImplicit rn ri anc p v).2.store rn).isSome :=
  synthOnly_root_isSome (stepImplicit_synthOnly rn ri anc p v) hroot

theorem processImplicits_closure (rn : String) (ri : List NodeArg) (anc : List String) :
    ∀ (inputs : List NodeArg) (p : Graph × BindSt),
      (lookupS p.2.store rn).isSome →
      ∀ v ∈ inputs, (p.1.getNodeArg v.name).isSome →
        ClosureOK rn ri (processImplicits rn ri anc p inputs).2.store p.1.name anc v.name
| [], p, _, v, hv, _ => by simp at hv
| w :: t, p, hroot, v, hv, hlk => by
  show ClosureOK rn ri (processImplicits rn ri anc (stepImplicit rn ri anc p w) t).2.store _ anc _
  rcases List.mem_cons.mp hv with rfl | hv2
  · have hstep := stepImplicit_closure rn ri anc p v hroot hlk
    exact closureOK_synthOnly rn ri (processImplicits_synthOnly rn ri anc t _) _ anc _ hstep
  · have hf := stepImplicit_fst rn ri anc p w
    have hroot2 := stepImplicit_root_isSome rn ri anc p w hroot
    have hlk2 : ((stepImplicit rn ri anc p w).1.getNodeArg v.name).isSome := by
      unfold Graph.getNodeArg
      rw [hf.2.2.2]
      exact hlk
    have h := processImplicits_closure rn ri anc t (stepImplicit rn ri anc p w) hroot2 v hv2 hlk2
    rw [hf.1] at h
    exact h

mutual
theorem bindGraph_closure (rn : String) (ri : List NodeArg) (gB : Graph) (anc : List String)
    (gO : Graph) (opn : Option Node) (st : BindSt) (hroot : (lookupS st.store rn).isSome) :
    ∀ q ∈ pairsG gB anc gO opn, ∀ v ∈ (q.2.2 : Node).implicitInputDefs,
      (q.1.getNodeArg v.name).isSome →
      ClosureOK rn ri (bindGraph rn ri gB anc gO opn st).2.store q.1.name q.2.1 v.name := by
  match gB with
  | .mk name nodes ins args os =>
    cases opn with
    | none =>
      intro q hq v hv hlk
      simp only [pairsG, List.nil_append] at hq
      simp only [bindGraph]
      exact bindNodes_closure rn ri nodes (name :: anc) gO st hroot q hq v hv hlk
    | some pn =>
      intro q hq v hv hlk
      simp only [pairsG] at hq
      simp only [bindGraph]
      rcases List.mem_append.mp hq with hq1 | hq2
      · have hqe : q = ((.mk name nodes ins args os : Graph), anc, pn) := by
          simpa using hq1
        subst hqe
        have hroot2 := synthOnly_root_isSome
          (bindNodes_synthOnly rn ri nodes (name :: anc) gO st) hroot
        exact processImplicits_closure rn ri anc pn.implicitInputDefs
          (⟨name, (bindNodes rn ri nodes (name :: anc) gO st).1, ins, args, os⟩,
            (bindNodes rn ri nodes (name :: anc) gO st).2) hroot2 v hv hlk
      · have h := bindNodes_closure rn ri nodes (name :: anc) gO st hroot q hq2 v hv hlk
        exact closureOK_synthOnly rn ri
          (processImplicits_synthOnly rn ri anc pn.implicitInputDefs _) _ _ _ h

theorem bindNodes_closure (rn : String) (ri : List NodeArg) (l : List (Option Node))
    (anc : List String) (gO : Graph) (st : BindSt) (hroot : (lookupS st.store rn).isSome) :
    ∀ q ∈ pairsNodes l anc gO, ∀ v ∈ (q.2.2 : Node).implicitInputDefs,
      (q.1.getNodeArg v.name).isSome →
      ClosureOK rn ri (bindNodes rn ri l anc gO st).2.store q.1.name q.2.1 v.name := by
  match l with
  | [] =>
    intro q hq
    simp [pairsNodes] at hq
  | none :: t =>
    intro q hq v hv hlk
    simp only [pairsNodes] at hq
    simp only [bindNodes]
    exact bindNodes_closure rn ri t anc gO st hroot q hq v hv hlk
  | some nd :: t =>
    intro q hq v hv hlk
    simp only [pairsNodes] at hq
    simp only [bindNodes]
    rcases List.mem_append.mp hq with hq1 | hq2
    · have h := bindNode_closure rn ri nd anc gO st hroot q hq1 v hv hlk
      exact closureOK_synthOnly rn ri
        (bindNodes_synthOnly rn ri t anc gO _) _ _ _ h
    · have hroot2 := synthOnly_root_isSome (bindNode_synthOnly rn ri nd anc gO st) hroot
      exact bindNodes_closure rn ri t anc gO _ hroot2 q hq2 v hv hlk

theorem bindNode_closure (rn : String) (ri : List NodeArg) (nd : Node) (anc : List String)
    (gO : Graph) (st : BindSt) (hroot : (lookupS st.store rn).isSome) :
    ∀ q ∈ pairsNode nd anc gO, ∀ v ∈ (q.2.2 : Node).implicitInputDefs,
      (q.1.getNodeArg v.name).isSome →
      ClosureOK rn ri (bindNode rn ri nd anc gO st).2.store q.1.name q.2.1 v.name := by
  match nd with
  | .mk nm i o im subs =>
    intro q hq v hv hlk
    simp only [pairsNode] at hq
    simp only [bindNode]
    exact bindSubs_closure rn ri subs anc _ _ st hroot q hq v hv hlk

theorem bindSubs_closure (rn : String) (ri : List NodeArg) (l : List (String × Graph))
    (anc : List String) (origSubs : List (String × Graph)) (om : Option Node) (st : BindSt)
    (hroot : (lookupS st.store rn).isSome) :
    ∀ q ∈ pairsSubs l anc origSubs om, ∀ v ∈ (q.2.2 : Node).implicitInputDefs,
      (q.1.getNodeArg v.name).isSome →
      ClosureOK rn ri (bindSubs rn ri l anc origSubs om st).2.store q.1.name q.2.1 v.name := by
  match l with
  | [] =>
    intro q hq
    simp [pairsSubs] at hq
  | (attr, sgB) :: t =>
    intro q hq v hv hlk
    cases hat : lookupAttr origSubs attr with
    | none =>
      simp only [pairsSubs, hat, List.nil_append] at hq
      simp only [bindSubs, hat]
      exact bindSubs_closure rn ri t anc origSubs om st hroot q hq v hv hlk
    | some sgO =>
      simp only [pairsSubs, hat] at hq
      simp only [bindSubs, hat]
      rcases List.mem_append.mp hq with hq1 | hq2
      · have h := bindGraph_closure rn ri sgB anc sgO om st hroot q hq1 v hv hlk
        exact closureOK_synthOnly rn ri
          (bindSubs_synthOnly rn ri t anc origSubs om _) _ _ _ h
      · have hroot2 := synthOnly_root_isSome
          (bindGraph_synthOnly rn ri sgB anc sgO om st) hroot
        exact bindSubs_closure rn ri t anc origSubs om _ hroot2 q hq2 v hv hlk
end

/-- Counterexample to C1 as stated: in the concrete extraction, all three
implicit inputs of the original control-flow node violate the claimed
disjunction after `bind`.  `r` has no node-arg in the built subgraph and is
skipped; `q` is only recorded in the top-level record's synthesized set
(bind never touches the declared input list); `p` is satisfied at the
top-level ancestor scope.  None of them ends up in the subgraph's Scope
Record or in the top-level declared input list. -/
theorem setOuter_closure_counterexample :
    origCtrlNode.implicitInputDefs.map NodeArg.name = ["r", "q", "p"] ∧
    ∀ v ∈ (["r", "q", "p"] : List String),
      IsLocalValue exBindRes.2 (viewOf "body" ["top"]) v = false ∧
      v ∉ exBindRes.1.inputsIncludingInitializers.map NodeArg.name := by
  decide

/-- Claim C1 (amended): for every implicit input `v` of a control-flow node
reached by the binder's lock-step traversal whose corresponding built
subgraph has a graph-local node-arg for `v`, after `bind` runs on a store
holding a record for the top-level graph (as a Context-Builder-populated
store does), `v` is accounted for in that subgraph's Scope Record, or at
some ancestor scope of it, or present in the top-level declared input list,
or recorded in the top-level Scope Record's synthesized set. -/
theorem setOuter_closure (gB gO : Graph) (s : Store)
    (hroot : (lookupS s gB.name).isSome) :
    ∀ q ∈ pairsG gB [] gO none, ∀ v ∈ (q.2.2 : Node).implicitInputDefs,
      (q.1.getNodeArg v.name).isSome →
      ClosureOK gB.name gB.inputsIncludingInitializers
        (SetGraphOuterScopeValuesAndInputs gB gO s).2 q.1.name q.2.1 v.name := by
  intro q hq v hv hlk
  exact bindGraph_closure gB.name gB.inputsIncludingInitializers gB [] gO none
    ⟨gB.nodeArgs, s⟩ hroot q hq v hv hlk

/-- Witness for C1 (amended) at the concrete extraction: implicit input `q`
of control-flow node `n`, referenced by the built subgraph `body`. -/
theorem setOuter_closure_witness :
    ClosureOK "top" [] exBindRes.2 "body" ["top"] "q" := by
  have hmem : ((builtInner, ["top"], origCtrlNode) : Graph × List String × Node) ∈
      pairsG builtTop [] origTop none := by
    rw [show pairsG builtTop [] origTop none = [(builtInner, ["top"], origCtrlNode)] from rfl]
    exact List.mem_singleton.mpr rfl
  exact setOuter_closure builtTop origTop exStore0 (by decide)
    (builtInner, ["top"], origCtrlNode) hmem argQ (by decide) (by decide)

theorem withInputs_inputs (g : Graph) (ins : List NodeArg) :
    (g.withInputs ins).inputsIncludingInitializers = ins := by
  match g with
  | .mk n ns i a os => rfl

/-- The direct embedding of `SetAllGraphInputs` is the explicit-enumeration
finalizer applied to one particular permitted enumeration of each
container (the embedding's insertion order). -/
theorem setAllGraphInputs_eq_iter (g : Graph) (s : Store) (c : SubGraphContext)
    (hc : lookupS s g.name = some c) :
    SetAllGraphInputs g s =
      SetAllGraphInputsIter g s c.inputs_and_initializers c.manually_added_graph_inputs := by
  unfold SetAllGraphInputs SetAllGraphInputsIter
  rw [hc]

/-- Counterexample to C6 as stated: the consumed entries are installed by
iterating a `std::unordered_map`, whose enumeration order is unspecified —
it need not be the order the Context Builder first encountered them.  For
the record the Context Builder leaves for `c6Graph` (consumed `a` then `b`,
synthesized `q`), enumerating the map as `b, a` is a permutation of its
entries — hence a permitted run of the C++ loop — yet the list that run
installs differs from the first-encounter-order list the claim requires. -/
theorem finalize_order_counterexample :
    lookupS c6Store "gfin" = some ⟨[], [("a", argA), ("b", argB)], [argQ]⟩ ∧
    ([("b", argB), ("a", argA)] : List (String × NodeArg)).Perm
      [("a", argA), ("b", argB)] ∧
    (SetAllGraphInputsIter c6Graph c6Store [("b", argB), ("a", argA)]
        [argQ]).inputsIncludingInitializers ≠
      ([("a", argA), ("b", argB)] : List (String × NodeArg)).map Prod.snd ++ [argQ] ++
        c6Graph.inputsIncludingInitializers := by
  decide

/-- Claim C6 (amended): when a graph's Scope Record has a non-empty
synthesized set, the finalizer installs as the declared input list exactly:
the consumed entries in the order the unordered consumed map happens to be
enumerated (some permutation of its entries — first-encounter order is not
guaranteed), followed by the synthesized entries in their enumeration
order, followed by the inputs the graph already explicitly declared, with
no deduplication; the installed list is therefore a permutation of
consumed values ++ synthesized ++ previously declared. -/
theorem finalize_installs_perm (g : Graph) (s : Store) (c : SubGraphContext)
    (ci : List (String × NodeArg)) (si : List NodeArg)
    (hc : lookupS s g.name = some c)
    (hci : ci.Perm c.inputs_and_initializers)
    (hsi : si.Perm c.manually_added_graph_inputs)
    (hne : c.manually_added_graph_inputs ≠ []) :
    (SetAllGraphInputsIter g s ci si).inputsIncludingInitializers =
      ci.map Prod.snd ++ si ++ g.inputsIncludingInitializers ∧
    (SetAllGraphInputsIter g s ci si).inputsIncludingInitializers.Perm
      (c.inputs_and_initializers.map Prod.snd ++ c.manually_added_graph_inputs ++
        g.inputsIncludingInitializers) := by
  have heq : (SetAllGraphInputsIter g s ci si).inputsIncludingInitializers =
      ci.map Prod.snd ++ si ++ g.inputsIncludingInitializers := by
    unfold SetAllGraphInputsIter
    rw [hc]
    show (if c.manually_added_graph_inputs.length = 0 then g
      else g.withInputs (ci.map Prod.snd ++ si ++
        g.inputsIncludingInitializers)).inputsIncludingInitializers = _
    rw [if_neg (fun h => hne (List.length_eq_zero.mp h))]
    exact withInputs_inputs g _
  refine ⟨heq, ?_⟩
  rw [heq]
  exact List.Perm.append (List.Perm.append (hci.map Prod.snd) hsi) (List.Perm.refl _)

/-- Witness for C6 (amended): at the concrete record, with the reversed
map enumeration `b, a` and the synthesized entry `q`. -/
theorem finalize_installs_perm_witness :
    (SetAllGraphInputsIter c6Graph c6Store [("b", argB), ("a", argA)]
        [argQ]).inputsIncludingInitializers =
      ([("b", argB), ("a", argA)] : List (String × NodeArg)).map Prod.snd ++ [argQ] ++
        c6Graph.inputsIncludingInitializers ∧
    (SetAllGraphInputsIter c6Graph c6Store [("b", argB), ("a", argA)]
        [argQ]).inputsIncludingInitializers.Perm
      (([("a", argA), ("b", argB)] : List (String × NodeArg)).map Prod.snd ++ [argQ] ++
        c6Graph.inputsIncludingInitializers) :=
  finalize_installs_perm c6Graph c6Store ⟨[], [("a", argA), ("b", argB)], [argQ]⟩
    [("b", argB), ("a", argA)] [argQ] (by decide) (by decide) (by decide) (by decide)
